import Mathlib

/-!
Verification of core properties of the ncatbot framework against a shallow
Lean embedding of its Python source.

Conventions of the embedding:
* Python strings are Lean `String`s; where a Python string operation has no
  direct Lean counterpart it is re-implemented on the character list and
  documented at the definition.
* Python `set`s are Lean `List`s whose operations preserve the membership
  semantics (`add` inserts if absent, `discard` removes all occurrences).
* Python `dict`s are association lists `List (key × value)` looked up by key.
* Fallible code (raising exceptions) is embedded as `Except`-valued
  functions; an exception raised before any mutation returns `Except.error`
  with the pre-state untouched.
* Asynchronous code is embedded as an explicit small-step state machine over
  the relevant shared state, with one action per suspension-point-free block.
-/

namespace Ncatbot

/-! ## Dictionary helpers

Python `dict`s are embedded as association lists with (invariantly) distinct
keys.  `dictGet` is `d.get(k)`, `dictRemove` is `d.pop(k, None)` (under the
distinct-keys invariant removing the filter of one key is the same as popping
it), `dictSet` is `d[k] = v` for a key already present. -/

def dictGet {α β : Type} [DecidableEq α] (l : List (α × β)) (k : α) : Option β :=
  match l with
  | [] => none
  | kv :: rest => if kv.1 = k then some kv.2 else dictGet rest k

def dictRemove {α β : Type} [DecidableEq α] (l : List (α × β)) (k : α) :
    List (α × β) :=
  l.filter (fun kv => kv.1 ≠ k)

def dictSet {α β : Type} [DecidableEq α] (l : List (α × β)) (k : α) (v : β) :
    List (α × β) :=
  l.map (fun kv => if kv.1 = k then (k, v) else kv)

def dictKeys {α β : Type} (l : List (α × β)) : List α :=
  l.map Prod.fst

theorem dictGet_eq_none_iff {α β : Type} [DecidableEq α]
    (l : List (α × β)) (k : α) : dictGet l k = none ↔ k ∉ dictKeys l := by
  induction l with
  | nil => simp [dictGet, dictKeys]
  | cons kv rest ih =>
      simp only [dictGet, dictKeys, List.map_cons, List.mem_cons]
      by_cases h : kv.1 = k
      · simp [h]
      · simp only [if_neg h, ih, dictKeys]
        constructor
        · intro hk hor
          rcases hor with h1 | h2
          · exact h h1.symm
          · exact hk h2
        · intro hk h2
          exact hk (Or.inr h2)

theorem dictGet_mem {α β : Type} [DecidableEq α]
    {l : List (α × β)} {k : α} {v : β} (h : dictGet l k = some v) :
    (k, v) ∈ l := by
  induction l with
  | nil => simp [dictGet] at h
  | cons kv rest ih =>
      by_cases hk : kv.1 = k
      · simp [dictGet, hk] at h
        subst hk
        rw [← h]
        exact List.mem_cons_self _ _
      · simp [dictGet, hk] at h
        exact List.mem_cons_of_mem _ (ih h)

theorem mem_keys_of_dictGet {α β : Type} [DecidableEq α]
    {l : List (α × β)} {k : α} {v : β} (h : dictGet l k = some v) :
    k ∈ dictKeys l :=
  List.mem_map.mpr ⟨(k, v), dictGet_mem h, rfl⟩

theorem keys_dictRemove_subset {α β : Type} [DecidableEq α]
    (l : List (α × β)) (k : α) :
    dictKeys (dictRemove l k) ⊆ dictKeys l :=
  List.map_subset _ (List.filter_sublist l).subset

theorem not_mem_keys_dictRemove {α β : Type} [DecidableEq α]
    (l : List (α × β)) (k : α) : k ∉ dictKeys (dictRemove l k) := by
  intro h
  rcases List.mem_map.mp h with ⟨kv, hmem, hfst⟩
  rcases List.mem_filter.mp hmem with ⟨_, hne⟩
  simp only [decide_eq_true_eq] at hne
  exact hne (by simpa using hfst)

theorem nodup_keys_dictRemove {α β : Type} [DecidableEq α]
    {l : List (α × β)} (h : (dictKeys l).Nodup) (k : α) :
    (dictKeys (dictRemove l k)).Nodup :=
  ((List.filter_sublist l).map Prod.fst).nodup h

theorem keys_dictSet {α β : Type} [DecidableEq α]
    (l : List (α × β)) (k : α) (v : β) :
    dictKeys (dictSet l k v) = dictKeys l := by
  induction l with
  | nil => rfl
  | cons kv rest ih =>
      simp only [dictSet, dictKeys, List.map_cons] at *
      rw [ih]
      by_cases h : kv.1 = k
      · simp [h]
      · simp [h]

theorem mem_dictSet {α β : Type} [DecidableEq α]
    {l : List (α × β)} {k : α} {v : β} {kv' : α × β}
    (h : kv' ∈ dictSet l k v) :
    kv' = (k, v) ∨ kv' ∈ l := by
  rcases List.mem_map.mp h with ⟨kv, hmem, heq⟩
  by_cases hk : kv.1 = k
  · simp [hk] at heq
    exact Or.inl heq.symm
  · simp [hk] at heq
    exact Or.inr (heq ▸ hmem)

theorem dictGet_dictSet_self {α β : Type} [DecidableEq α]
    (l : List (α × β)) (k : α) (v : β) :
    dictGet (dictSet l k v) k =
      if k ∈ dictKeys l then some v else none := by
  induction l with
  | nil => simp [dictSet, dictGet, dictKeys]
  | cons kv rest ih =>
      by_cases h : kv.1 = k
      · simp [dictSet, dictGet, dictKeys, h]
      · have e1 : dictSet (kv :: rest) k v = kv :: dictSet rest k v := by
          simp [dictSet, h]
        rw [e1]
        have e2 : dictGet (kv :: dictSet rest k v) k = dictGet (dictSet rest k v) k := by
          simp [dictGet, h]
        rw [e2, ih]
        have hk : ¬ k = kv.1 := fun hc => h hc.symm
        have hiff : (k ∈ List.map Prod.fst rest) ↔
            (k ∈ kv.1 :: List.map Prod.fst rest) := by
          simp [List.mem_cons, hk]
        exact if_congr hiff rfl rfl

theorem dictGet_dictSet_ne {α β : Type} [DecidableEq α]
    (l : List (α × β)) (k x : α) (v : β) (hx : x ≠ k) :
    dictGet (dictSet l k v) x = dictGet l x := by
  induction l with
  | nil => simp [dictSet, dictGet]
  | cons kv rest ih =>
      by_cases h : kv.1 = k
      · have hkx : ¬ k = x := fun hc => hx hc.symm
        have hkvx : ¬ kv.1 = x := h ▸ hkx
        calc dictGet (dictSet (kv :: rest) k v) x
            = dictGet (dictSet rest k v) x := by
              simp [dictSet, dictGet, h, hkx]
          _ = dictGet rest x := ih
          _ = dictGet (kv :: rest) x := by simp [dictGet, hkvx]
      · by_cases h2 : kv.1 = x
        · simp [dictSet, dictGet, h, h2, hx]
        · calc dictGet (dictSet (kv :: rest) k v) x
              = dictGet (dictSet rest k v) x := by
                simp [dictSet, dictGet, h, h2]
            _ = dictGet rest x := ih
            _ = dictGet (kv :: rest) x := by simp [dictGet, h2]

theorem dictGet_append_single {α β : Type} [DecidableEq α]
    (l : List (α × β)) (k x : α) (v : β) :
    dictGet (l ++ [(k, v)]) x =
      match dictGet l x with
      | some w => some w
      | none => if x = k then some v else none := by
  induction l with
  | nil => simp [dictGet, eq_comm]
  | cons kv rest ih =>
      by_cases h : kv.1 = x
      · simp [dictGet, h]
      · simp only [List.cons_append, dictGet, if_neg h]
        exact ih

theorem dictGet_dictRemove {α β : Type} [DecidableEq α]
    (l : List (α × β)) (k x : α) :
    dictGet (dictRemove l k) x = if x = k then none else dictGet l x := by
  induction l with
  | nil => simp [dictRemove, dictGet]
  | cons kv rest ih =>
      by_cases h : kv.1 = k
      · have e1 : dictRemove (kv :: rest) k = dictRemove rest k := by
          simp [dictRemove, List.filter_cons, h]
        rw [e1, ih]
        by_cases hx : x = k
        · simp [hx]
        · have hne : ¬ kv.1 = x := fun hc => hx (by rw [← hc, h])
          simp [dictGet, hx, hne]
      · have e1 : dictRemove (kv :: rest) k = kv :: dictRemove rest k := by
          simp [dictRemove, List.filter_cons, h]
        rw [e1]
        by_cases h2 : kv.1 = x
        · have hx : ¬ x = k := fun hc => h (by rw [h2, hc])
          simp [dictGet, h2, hx]
        · simp only [dictGet, if_neg h2]
          rw [ih]

theorem dictGet_mapValues {α β : Type} [DecidableEq α]
    (l : List (α × β)) (g : α → β → β) (x : α) :
    dictGet (l.map (fun kv => (kv.1, g kv.1 kv.2))) x =
      (dictGet l x).map (g x) := by
  induction l with
  | nil => simp [dictGet]
  | cons kv rest ih =>
      by_cases h : kv.1 = x
      · subst h
        simp [dictGet]
      · simp only [List.map_cons, dictGet, if_neg h]
        exact ih

/-! ## Configuration utilities (`ncatbot/utils/config/utils.py`) -/

/-- The special-character class of `strong_password_check`
(`!@#$%^&*()_+\-=\[\]{}|;:,.<>?` as a regex character class, i.e. the literal
characters shown with the regex escapes removed). -/
def specialChars : List Char := "!@#$%^&*()_+-=[]\x7b\x7d|;:,.<>?".data

/-- Embedding of `strong_password_check(password)`: length at least 12 and the
four regex searches `\d`, `[a-z]`, `[A-Z]`, `[<special>]` all succeed.
`re.search` succeeds iff some character of the string is in the class. -/
def strong_password_check (password : String) : Bool :=
  password.length ≥ 12 &&
  password.data.any (fun c => c.isDigit) &&
  password.data.any (fun c => 'a' ≤ c && c ≤ 'z') &&
  password.data.any (fun c => 'A' ≤ c && c ≤ 'Z') &&
  password.data.any (fun c => specialChars.contains c)

/-! ## Message router (`ncatbot/core/service/builtin/message_router.py`)

`MessageRouter.send` allocates a fresh echo id (`uuid.uuid4()`), stores an
`asyncio.Future` under it in `_pending_futures`, writes the frame
`{action: action.replace("/", ""), params, echo}`, awaits the future with a
timeout, and in a `finally` block pops the echo from the table.
`MessageRouter._on_message` resolves the future when a frame carries a live
pending echo; otherwise it hands the frame to the event callback.

The embedding is a small-step state machine.  Echo ids are modelled as the
values of a fresh-identifier counter (`uuid4` collisions are treated as
impossible, as the spec states).  Each action below is one of the
suspension-point-free blocks of the Python code:
* `sendStart`:   allocate echo, register future, encode and write the frame;
* `frameArrive`: the body of `_on_message` for one inbound frame;
* `sendReturn`:  the awaiting `send` resumes after its future was resolved
                 and pops its echo in `finally`;
* `sendTimeout`: `asyncio.wait_for` expires (only possible while the future
                 is unresolved), `send` raises `TimeoutError` and pops its
                 echo in `finally`. -/

/-- Embedding of the Python expression `action.replace("/", "")`: with a
one-character pattern and an empty replacement, `str.replace` deletes every
occurrence of that character. -/
def replaceSlash (s : String) : String :=
  ⟨s.data.filter (fun c => c ≠ '/')⟩

/-- Spec-side definition, following the spec words for the `action` field:
"the leading `/` if any is stripped".  Used only to compare the claimed
behaviour with the source behaviour. -/
def stripLeadingSlash (s : String) : String :=
  match s.data with
  | [] => s
  | c :: rest => if c = '/' then ⟨rest⟩ else s

/-- An outbound request frame `{"action": ..., "params": ..., "echo": ...}`. -/
structure OutFrame where
  action : String
  params : List (String × String)
  echo : Nat
  deriving DecidableEq, Repr

/-- An inbound frame; only the `echo` field steers `_on_message`, the rest of
the JSON object is opaque here. -/
structure InFrame where
  echo : Option Nat
  body : String
  deriving DecidableEq, Repr

/-- The completion slot stored in `_pending_futures`: an `asyncio.Future`
that is either unresolved or resolved with the inbound frame. -/
inductive Slot where
  | waiting
  | done (f : InFrame)
  deriving DecidableEq, Repr

/-- The router state shared by all `send` calls and the receive loop. -/
structure RouterState where
  pending : List (Nat × Slot)
  next : Nat
  deriving DecidableEq, Repr

/-- Whether `_event_callback` is set. -/
structure RouterCfg where
  hasCallback : Bool

def initRouter : RouterState := { pending := [], next := 0 }

inductive RouterAct where
  | sendStart (action : String) (params : List (String × String))
  | frameArrive (f : InFrame)
  | sendReturn (echo : Nat)
  | sendTimeout (echo : Nat)

/-- Observable effect of one step. `toCaller e` is `future.set_result`;
`toEvent f` is `asyncio.create_task(self._event_callback(data))`;
`dropped f` is the fall-through when no event callback is registered;
`returned e f` / `timedOut e` are `send` returning the response / raising
`TimeoutError`. -/
inductive RouterObs where
  | sent (echo : Nat) (f : OutFrame)
  | toCaller (echo : Nat)
  | toEvent (f : InFrame)
  | dropped (f : InFrame)
  | returned (echo : Nat) (f : InFrame)
  | timedOut (echo : Nat)
  | skip
  deriving DecidableEq, Repr

/-- Frame encoding in `MessageRouter.send`:
`{"action": action.replace("/", ""), "params": params or {}, "echo": echo}`. -/
def mkOutFrame (action : String) (params : List (String × String)) (echo : Nat) :
    OutFrame :=
  { action := replaceSlash action, params := params, echo := echo }

def pendingKeys (st : RouterState) : List Nat :=
  dictKeys st.pending

/-- The fall-through at the end of `_on_message`: hand the frame to the
event callback if one is set, otherwise do nothing with it. -/
def callbackResult (cfg : RouterCfg) (st : RouterState) (f : InFrame) :
    RouterState × RouterObs :=
  if cfg.hasCallback then (st, .toEvent f) else (st, .dropped f)

/-- One step of the router state machine. -/
def routerStep (cfg : RouterCfg) (st : RouterState) :
    RouterAct → RouterState × RouterObs
  | .sendStart action params =>
      let e := st.next
      ({ pending := st.pending ++ [(e, Slot.waiting)], next := e + 1 },
       .sent e (mkOutFrame action params e))
  | .frameArrive f =>
      match f.echo with
      | some e =>
          match dictGet st.pending e with
          | some Slot.waiting =>
              ({ st with pending := dictSet st.pending e (Slot.done f) },
               .toCaller e)
          | _ => callbackResult cfg st f
      | none => callbackResult cfg st f
  | .sendReturn e =>
      match dictGet st.pending e with
      | some (Slot.done f) =>
          ({ st with pending := dictRemove st.pending e }, .returned e f)
      | _ => (st, .skip)
  | .sendTimeout e =>
      match dictGet st.pending e with
      | some Slot.waiting =>
          ({ st with pending := dictRemove st.pending e }, .timedOut e)
      | _ => (st, .skip)

theorem callbackResult_fst (cfg : RouterCfg) (st : RouterState) (f : InFrame) :
    (callbackResult cfg st f).1 = st := by
  unfold callbackResult
  split <;> rfl

theorem callbackResult_snd (cfg : RouterCfg) (st : RouterState) (f : InFrame) :
    (callbackResult cfg st f).2 = .toEvent f ∨
    (callbackResult cfg st f).2 = .dropped f := by
  unfold callbackResult
  split
  · exact Or.inl rfl
  · exact Or.inr rfl

/-- Run a sequence of steps, collecting the observations. -/
def routerRun (cfg : RouterCfg) (st : RouterState) :
    List RouterAct → RouterState × List RouterObs
  | [] => (st, [])
  | a :: rest =>
      let p := routerStep cfg st a
      let q := routerRun cfg p.1 rest
      (q.1, p.2 :: q.2)

/-- Router state invariant: echo keys are distinct, below the freshness
counter, and a resolved slot holds the frame that carried its own echo. -/
def RouterInv (st : RouterState) : Prop :=
  (pendingKeys st).Nodup ∧
  (∀ e ∈ pendingKeys st, e < st.next) ∧
  (∀ kv ∈ st.pending, ∀ f, kv.2 = Slot.done f → f.echo = some kv.1)

/-- The echoes of the `sent` observations of a run. -/
def sentEchoes (l : List RouterObs) : List Nat :=
  l.filterMap (fun o => match o with | .sent e _ => some e | _ => none)

/-- An echo has left the router for good: it is below the freshness counter
and absent from the pending table. -/
def Gone (st : RouterState) (e : Nat) : Prop :=
  e < st.next ∧ e ∉ pendingKeys st

theorem initRouter_inv : RouterInv initRouter := by
  refine ⟨?_, ?_, ?_⟩ <;> simp [initRouter, pendingKeys, dictKeys, RouterInv]

theorem routerStep_inv (cfg : RouterCfg) (st : RouterState) (a : RouterAct)
    (h : RouterInv st) : RouterInv (routerStep cfg st a).1 := by
  obtain ⟨h1, h2, h3⟩ := h
  cases a with
  | sendStart action params =>
      refine ⟨?_, ?_, ?_⟩
      · simp only [routerStep, pendingKeys, dictKeys, List.map_append,
          List.map_cons, List.map_nil]
        rw [List.nodup_append]
        refine ⟨h1, List.nodup_singleton _, ?_⟩
        intro x hx hy
        simp only [List.mem_singleton] at hy
        subst hy
        exact absurd (h2 _ hx) (lt_irrefl _)
      · intro e he
        simp only [routerStep, pendingKeys, dictKeys, List.map_append,
          List.map_cons, List.map_nil, List.mem_append,
          List.mem_singleton] at he
        rcases he with he | he
        · exact Nat.lt_succ_of_lt (h2 e he)
        · subst he
          exact Nat.lt_succ_self _
      · intro kv hkv f hf
        simp only [routerStep, List.mem_append, List.mem_singleton] at hkv
        rcases hkv with hkv | hkv
        · exact h3 kv hkv f hf
        · subst hkv
          simp at hf
  | frameArrive f =>
      rcases hfe : f.echo with _ | e
      · simp only [routerStep, hfe, callbackResult_fst]
        exact ⟨h1, h2, h3⟩
      · rcases hg : dictGet st.pending e with _ | s
        · simp only [routerStep, hfe, hg, callbackResult_fst]
          exact ⟨h1, h2, h3⟩
        · cases s with
          | waiting =>
              simp only [routerStep, hfe, hg]
              refine ⟨?_, ?_, ?_⟩
              · simpa [pendingKeys, keys_dictSet] using h1
              · intro x hx
                rw [pendingKeys, keys_dictSet] at hx
                exact h2 x hx
              · intro kv hkv g hg2
                rcases mem_dictSet hkv with hkv | hkv
                · subst hkv
                  simp at hg2
                  rw [← hg2]
                  exact hfe
                · exact h3 kv hkv g hg2
          | done f0 =>
              simp only [routerStep, hfe, hg, callbackResult_fst]
              exact ⟨h1, h2, h3⟩
  | sendReturn e =>
      rcases hg : dictGet st.pending e with _ | s
      · simp only [routerStep, hg]
        exact ⟨h1, h2, h3⟩
      · cases s with
        | waiting =>
            simp only [routerStep, hg]
            exact ⟨h1, h2, h3⟩
        | done f0 =>
            simp only [routerStep, hg]
            refine ⟨nodup_keys_dictRemove h1 e, ?_, ?_⟩
            · intro x hx
              exact h2 x (keys_dictRemove_subset _ _ hx)
            · intro kv hkv g hg2
              exact h3 kv ((List.filter_sublist _).subset hkv) g hg2
  | sendTimeout e =>
      rcases hg : dictGet st.pending e with _ | s
      · simp only [routerStep, hg]
        exact ⟨h1, h2, h3⟩
      · cases s with
        | waiting =>
            simp only [routerStep, hg]
            refine ⟨nodup_keys_dictRemove h1 e, ?_, ?_⟩
            · intro x hx
              exact h2 x (keys_dictRemove_subset _ _ hx)
            · intro kv hkv g hg2
              exact h3 kv ((List.filter_sublist _).subset hkv) g hg2
        | done f0 =>
            simp only [routerStep, hg]
            exact ⟨h1, h2, h3⟩

theorem routerStep_next_le (cfg : RouterCfg) (st : RouterState) (a : RouterAct) :
    st.next ≤ (routerStep cfg st a).1.next := by
  cases a with
  | sendStart action params => simp [routerStep]
  | frameArrive f =>
      rcases hfe : f.echo with _ | e
      · simp [routerStep, hfe, callbackResult_fst]
      · rcases hg : dictGet st.pending e with _ | s
        · simp [routerStep, hfe, hg, callbackResult_fst]
        · cases s with
          | waiting => simp [routerStep, hfe, hg]
          | done f0 => simp [routerStep, hfe, hg, callbackResult_fst]
  | sendReturn e =>
      rcases hg : dictGet st.pending e with _ | s
      · simp [routerStep, hg]
      · cases s <;> simp [routerStep, hg]
  | sendTimeout e =>
      rcases hg : dictGet st.pending e with _ | s
      · simp [routerStep, hg]
      · cases s <;> simp [routerStep, hg]

theorem routerStep_gone (cfg : RouterCfg) (st : RouterState) (a : RouterAct)
    {e : Nat} (h : Gone st e) : Gone (routerStep cfg st a).1 e := by
  obtain ⟨hlt, hnm⟩ := h
  cases a with
  | sendStart action params =>
      refine ⟨Nat.lt_succ_of_lt hlt, ?_⟩
      simp only [routerStep, pendingKeys, dictKeys, List.map_append,
        List.map_cons, List.map_nil, List.mem_append, List.mem_singleton]
      rintro (hc | hc)
      · exact hnm hc
      · subst hc
        exact absurd hlt (lt_irrefl _)
  | frameArrive f =>
      rcases hfe : f.echo with _ | e0
      · simp only [routerStep, hfe, callbackResult_fst]
        exact ⟨hlt, hnm⟩
      · rcases hg : dictGet st.pending e0 with _ | s
        · simp only [routerStep, hfe, hg, callbackResult_fst]
          exact ⟨hlt, hnm⟩
        · cases s with
          | waiting =>
              simp only [routerStep, hfe, hg]
              refine ⟨hlt, ?_⟩
              rw [pendingKeys, keys_dictSet]
              exact hnm
          | done f0 =>
              simp only [routerStep, hfe, hg, callbackResult_fst]
              exact ⟨hlt, hnm⟩
  | sendReturn e0 =>
      rcases hg : dictGet st.pending e0 with _ | s
      · simp only [routerStep, hg]
        exact ⟨hlt, hnm⟩
      · cases s with
        | waiting =>
            simp only [routerStep, hg]
            exact ⟨hlt, hnm⟩
        | done f0 =>
            simp only [routerStep, hg]
            exact ⟨hlt, fun hc => hnm (keys_dictRemove_subset _ _ hc)⟩
  | sendTimeout e0 =>
      rcases hg : dictGet st.pending e0 with _ | s
      · simp only [routerStep, hg]
        exact ⟨hlt, hnm⟩
      · cases s with
        | waiting =>
            simp only [routerStep, hg]
            exact ⟨hlt, fun hc => hnm (keys_dictRemove_subset _ _ hc)⟩
        | done f0 =>
            simp only [routerStep, hg]
            exact ⟨hlt, hnm⟩

theorem routerStep_sent (cfg : RouterCfg) (st : RouterState) (a : RouterAct)
    {e : Nat} {f : OutFrame} (h : (routerStep cfg st a).2 = .sent e f) :
    e = st.next ∧ (routerStep cfg st a).1.next = st.next + 1 := by
  cases a with
  | sendStart action params =>
      constructor
      · simp only [routerStep] at h
        exact (RouterObs.sent.inj h).1.symm
      · simp [routerStep]
  | frameArrive f0 =>
      exfalso
      rcases hfe : f0.echo with _ | e0
      · simp only [routerStep, hfe] at h
        rcases callbackResult_snd cfg st f0 with hc | hc <;> rw [hc] at h <;>
          exact RouterObs.noConfusion h
      · rcases hg : dictGet st.pending e0 with _ | s
        · simp only [routerStep, hfe, hg] at h
          rcases callbackResult_snd cfg st f0 with hc | hc <;> rw [hc] at h <;>
            exact RouterObs.noConfusion h
        · cases s with
          | waiting => simp only [routerStep, hfe, hg] at h; exact RouterObs.noConfusion h
          | done f1 =>
              simp only [routerStep, hfe, hg] at h
              rcases callbackResult_snd cfg st f0 with hc | hc <;> rw [hc] at h <;>
                exact RouterObs.noConfusion h
  | sendReturn e0 =>
      exfalso
      rcases hg : dictGet st.pending e0 with _ | s
      · simp only [routerStep, hg] at h
        exact RouterObs.noConfusion h
      · cases s <;> simp only [routerStep, hg] at h <;> exact RouterObs.noConfusion h
  | sendTimeout e0 =>
      exfalso
      rcases hg : dictGet st.pending e0 with _ | s
      · simp only [routerStep, hg] at h
        exact RouterObs.noConfusion h
      · cases s <;> simp only [routerStep, hg] at h <;> exact RouterObs.noConfusion h

theorem routerStep_returned (cfg : RouterCfg) (st : RouterState) (a : RouterAct)
    {e : Nat} {f : InFrame} (hinv : RouterInv st)
    (h : (routerStep cfg st a).2 = .returned e f) :
    f.echo = some e ∧ Gone (routerStep cfg st a).1 e := by
  obtain ⟨h1, h2, h3⟩ := hinv
  cases a with
  | sendStart action params =>
      exfalso
      simp only [routerStep] at h
      exact RouterObs.noConfusion h
  | frameArrive f0 =>
      exfalso
      rcases hfe : f0.echo with _ | e0
      · simp only [routerStep, hfe] at h
        rcases callbackResult_snd cfg st f0 with hc | hc <;> rw [hc] at h <;>
          exact RouterObs.noConfusion h
      · rcases hg : dictGet st.pending e0 with _ | s
        · simp only [routerStep, hfe, hg] at h
          rcases callbackResult_snd cfg st f0 with hc | hc <;> rw [hc] at h <;>
            exact RouterObs.noConfusion h
        · cases s with
          | waiting => simp only [routerStep, hfe, hg] at h; exact RouterObs.noConfusion h
          | done f1 =>
              simp only [routerStep, hfe, hg] at h
              rcases callbackResult_snd cfg st f0 with hc | hc <;> rw [hc] at h <;>
                exact RouterObs.noConfusion h
  | sendReturn e0 =>
      rcases hg : dictGet st.pending e0 with _ | s
      · exfalso
        simp only [routerStep, hg] at h
        exact RouterObs.noConfusion h
      · cases s with
        | waiting =>
            exfalso
            simp only [routerStep, hg] at h
            exact RouterObs.noConfusion h
        | done f1 =>
            simp only [routerStep, hg] at h ⊢
            obtain ⟨he, hf⟩ := RouterObs.returned.inj h
            subst he
            subst hf
            refine ⟨h3 _ (dictGet_mem hg) _ rfl, ?_, ?_⟩
            · exact h2 _ (mem_keys_of_dictGet hg)
            · exact not_mem_keys_dictRemove _ _
  | sendTimeout e0 =>
      exfalso
      rcases hg : dictGet st.pending e0 with _ | s
      · simp only [routerStep, hg] at h
        exact RouterObs.noConfusion h
      · cases s <;> simp only [routerStep, hg] at h <;> exact RouterObs.noConfusion h

theorem routerStep_timedOut (cfg : RouterCfg) (st : RouterState) (a : RouterAct)
    {e : Nat} (hinv : RouterInv st)
    (h : (routerStep cfg st a).2 = .timedOut e) :
    Gone (routerStep cfg st a).1 e := by
  obtain ⟨h1, h2, h3⟩ := hinv
  cases a with
  | sendStart action params =>
      exfalso
      simp only [routerStep] at h
      exact RouterObs.noConfusion h
  | frameArrive f0 =>
      exfalso
      rcases hfe : f0.echo with _ | e0
      · simp only [routerStep, hfe] at h
        rcases callbackResult_snd cfg st f0 with hc | hc <;> rw [hc] at h <;>
          exact RouterObs.noConfusion h
      · rcases hg : dictGet st.pending e0 with _ | s
        · simp only [routerStep, hfe, hg] at h
          rcases callbackResult_snd cfg st f0 with hc | hc <;> rw [hc] at h <;>
            exact RouterObs.noConfusion h
        · cases s with
          | waiting => simp only [routerStep, hfe, hg] at h; exact RouterObs.noConfusion h
          | done f1 =>
              simp only [routerStep, hfe, hg] at h
              rcases callbackResult_snd cfg st f0 with hc | hc <;> rw [hc] at h <;>
                exact RouterObs.noConfusion h
  | sendReturn e0 =>
      exfalso
      rcases hg : dictGet st.pending e0 with _ | s
      · simp only [routerStep, hg] at h
        exact RouterObs.noConfusion h
      · cases s <;> simp only [routerStep, hg] at h <;> exact RouterObs.noConfusion h
  | sendTimeout e0 =>
      rcases hg : dictGet st.pending e0 with _ | s
      · exfalso
        simp only [routerStep, hg] at h
        exact RouterObs.noConfusion h
      · cases s with
        | waiting =>
            simp only [routerStep, hg] at h ⊢
            have he := RouterObs.timedOut.inj h
            subst he
            exact ⟨h2 _ (mem_keys_of_dictGet hg), not_mem_keys_dictRemove _ _⟩
        | done f1 =>
            exfalso
            simp only [routerStep, hg] at h
            exact RouterObs.noConfusion h

theorem routerRun_inv (cfg : RouterCfg) (st : RouterState) (acts : List RouterAct)
    (h : RouterInv st) : RouterInv (routerRun cfg st acts).1 := by
  induction acts generalizing st with
  | nil => exact h
  | cons a rest ih =>
      simp only [routerRun]
      exact ih _ (routerStep_inv cfg st a h)

theorem routerRun_gone (cfg : RouterCfg) (st : RouterState) (acts : List RouterAct)
    {e : Nat} (h : Gone st e) : Gone (routerRun cfg st acts).1 e := by
  induction acts generalizing st with
  | nil => exact h
  | cons a rest ih =>
      simp only [routerRun]
      exact ih _ (routerStep_gone cfg st a h)

theorem routerRun_next_le (cfg : RouterCfg) (st : RouterState)
    (acts : List RouterAct) : st.next ≤ (routerRun cfg st acts).1.next := by
  induction acts generalizing st with
  | nil => exact le_refl _
  | cons a rest ih =>
      simp only [routerRun]
      exact le_trans (routerStep_next_le cfg st a) (ih _)

theorem routerRun_returned_echo (cfg : RouterCfg) (st : RouterState)
    (acts : List RouterAct) {e : Nat} {f : InFrame} (hinv : RouterInv st)
    (hm : RouterObs.returned e f ∈ (routerRun cfg st acts).2) :
    f.echo = some e := by
  induction acts generalizing st with
  | nil => simp [routerRun] at hm
  | cons a rest ih =>
      simp only [routerRun, List.mem_cons] at hm
      rcases hm with hm | hm
      · exact (routerStep_returned cfg st a hinv hm.symm).1
      · exact ih _ (routerStep_inv cfg st a hinv) hm

theorem routerRun_finished_gone (cfg : RouterCfg) (st : RouterState)
    (acts : List RouterAct) {e : Nat} (hinv : RouterInv st)
    (hm : (∃ f, RouterObs.returned e f ∈ (routerRun cfg st acts).2) ∨
          RouterObs.timedOut e ∈ (routerRun cfg st acts).2) :
    Gone (routerRun cfg st acts).1 e := by
  induction acts generalizing st with
  | nil =>
      exfalso
      rcases hm with ⟨f, hm⟩ | hm <;> simp [routerRun] at hm
  | cons a rest ih =>
      simp only [routerRun, List.mem_cons] at hm ⊢
      rcases hm with ⟨f, hm | hm⟩ | hm | hm
      · exact routerRun_gone cfg _ rest (routerStep_returned cfg st a hinv hm.symm).2
      · exact ih _ (routerStep_inv cfg st a hinv) (Or.inl ⟨f, hm⟩)
      · exact routerRun_gone cfg _ rest (routerStep_timedOut cfg st a hinv hm.symm)
      · exact ih _ (routerStep_inv cfg st a hinv) (Or.inr hm)

theorem sentEcho_eq_some {o : RouterObs} {e : Nat}
    (h : (match o with | RouterObs.sent e0 _ => some e0 | _ => none) = some e) :
    ∃ f, o = RouterObs.sent e f := by
  cases o <;> simp at h
  case sent e0 f0 =>
    exact ⟨f0, by rw [h]⟩

theorem routerRun_sent_ge (cfg : RouterCfg) (st : RouterState)
    (acts : List RouterAct) :
    ∀ e ∈ sentEchoes (routerRun cfg st acts).2, st.next ≤ e := by
  induction acts generalizing st with
  | nil => simp [routerRun, sentEchoes]
  | cons a rest ih =>
      intro e he
      simp only [routerRun, sentEchoes, List.filterMap_cons] at he
      rcases hq : (match (routerStep cfg st a).2 with
          | RouterObs.sent e0 _ => some e0 | _ => none) with _ | e1
      · rw [hq] at he
        exact le_trans (routerStep_next_le cfg st a) (ih _ e he)
      · rw [hq] at he
        obtain ⟨f1, hf1⟩ := sentEcho_eq_some hq
        simp only [List.mem_cons] at he
        rcases he with he | he
        · subst he
          exact le_of_eq (routerStep_sent cfg st a hf1).1.symm
        · exact le_trans (routerStep_next_le cfg st a) (ih _ e he)

theorem routerRun_sent_pairwise (cfg : RouterCfg) (st : RouterState)
    (acts : List RouterAct) :
    (sentEchoes (routerRun cfg st acts).2).Pairwise (· < ·) := by
  induction acts generalizing st with
  | nil => simp [routerRun, sentEchoes]
  | cons a rest ih =>
      simp only [routerRun, sentEchoes, List.filterMap_cons]
      rcases hq : (match (routerStep cfg st a).2 with
          | RouterObs.sent e0 _ => some e0 | _ => none) with _ | e1
      · rw [hq]
        exact ih _
      · rw [hq]
        obtain ⟨f1, hf1⟩ := sentEcho_eq_some hq
        obtain ⟨he1, hnext⟩ := routerStep_sent cfg st a hf1
        refine List.Pairwise.cons ?_ (ih _)
        intro x hx
        have hge := routerRun_sent_ge cfg _ rest x hx
        rw [hnext] at hge
        omega

/-! ## RBAC service (`ncatbot/core/service/builtin/rbac/service.py`)

State: `_permissions` (a trie of stored paths — modelled as the set of stored
path strings), `_roles` (role → whitelist/blacklist), `_users`
(user → whitelist/blacklist/roles), `_role_users`, `_role_inheritance`
(role → list of parent roles), and the default role.  Python sets are lists
with membership semantics; `setAdd` is `set.add`, `setDiscard` is
`set.discard`.  The service defaults to `case_sensitive=True`; matching is
modelled case-sensitively. -/

def setAdd (l : List String) (x : String) : List String :=
  if x ∈ l then l else x :: l

def setDiscard (l : List String) (x : String) : List String :=
  l.filter (fun y => y ≠ x)

/-- White/black permission lists of a role (`{"whitelist": set(), "blacklist": set()}`). -/
structure PermLists where
  whitelist : List String
  blacklist : List String
  deriving DecidableEq, Repr

/-- A user record (`{"whitelist": set(), "blacklist": set(), "roles": [...]}`). -/
structure UserData where
  whitelist : List String
  blacklist : List String
  roles : List String
  deriving DecidableEq, Repr

/-- The mutable state of `RBACService`. -/
structure RBACState where
  permissions : List String
  roles : List (String × PermLists)
  users : List (String × UserData)
  roleUsers : List (String × List String)
  roleInheritance : List (String × List String)
  defaultRole : Option String
  deriving DecidableEq, Repr

/-- The state right after `RBACService.__init__` (no persisted data). -/
def initRBAC (defaultRole : Option String) : RBACState :=
  { permissions := [], roles := [], users := [], roleUsers := [],
    roleInheritance := [], defaultRole := defaultRole }

/-- Modelled from the spec: `PermissionPath` (`rbac/path.py`, not under
`src/`) splits a path on `.`; this is the component list of a path. -/
def pathSplitAux : List Char → List Char → List (List Char)
  | [], cur => [cur.reverse]
  | c :: rest, cur =>
      if c = '.' then cur.reverse :: pathSplitAux rest []
      else pathSplitAux rest (c :: cur)

def pathComponents (s : String) : List String :=
  (pathSplitAux s.data []).map (fun cs => ⟨cs⟩)

/-- Modelled from the spec: `PermissionPath(pattern).matches(path)`
(`rbac/path.py`, not under `src/`): "Pattern matching is component-wise
left-to-right, wildcard matches any literal, literal matches only itself";
`*` matches exactly one component (the spec leaves a trailing `**` as
optional — it is not modelled). -/
def matchComponents : List String → List String → Bool
  | [], [] => true
  | p :: ps, c :: cs => (p = "*" || p = c) && matchComponents ps cs
  | _, _ => false

def permMatches (pattern path : String) : Bool :=
  matchComponents (pathComponents pattern) (pathComponents path)

/-- Parent list of a role in the inheritance map
(`self._role_inheritance.get(role, [])`). -/
def parentsOf (inh : List (String × List String)) (r : String) : List String :=
  (dictGet inh r).getD []

/-- Reflexive-transitive reachability along inheritance edges
(role → one of its parents). -/
inductive ReachRT (inh : List (String × List String)) : String → String → Prop
  | refl (a : String) : ReachRT inh a a
  | step {a b c : String} : b ∈ parentsOf inh a → ReachRT inh b c → ReachRT inh a c

theorem ReachRT.trans {inh : List (String × List String)} {a b c : String}
    (h1 : ReachRT inh a b) (h2 : ReachRT inh b c) : ReachRT inh a c := by
  induction h1 with
  | refl => exact h2
  | step he _ ih => exact ReachRT.step he (ih h2)

/-- A single inheritance edge. -/
def EdgeTo (inh : List (String × List String)) (a b : String) : Prop :=
  b ∈ parentsOf inh a

/-- Acyclicity: no role reaches itself through at least one edge. -/
def AcyclicInh (inh : List (String × List String)) : Prop :=
  ∀ a, ¬ ∃ b, EdgeTo inh a b ∧ ReachRT inh b a

/-- Edge-wise subgraphs preserve reachability into the larger graph. -/
theorem ReachRT.mono {inh1 inh2 : List (String × List String)}
    (hsub : ∀ x, parentsOf inh2 x ⊆ parentsOf inh1 x) {a b : String}
    (h : ReachRT inh2 a b) : ReachRT inh1 a b := by
  induction h with
  | refl => exact ReachRT.refl _
  | step he _ ih => exact ReachRT.step (hsub _ he) ih

theorem AcyclicInh.anti {inh1 inh2 : List (String × List String)}
    (hsub : ∀ x, parentsOf inh2 x ⊆ parentsOf inh1 x)
    (h : AcyclicInh inh1) : AcyclicInh inh2 := by
  intro a ⟨b, hedge, hreach⟩
  exact h a ⟨b, hsub a hedge, hreach.mono hsub⟩

/-- In a set closed under inheritance edges, reachability stays inside. -/
theorem reach_closed {inh : List (String × List String)} {V : List String}
    (hclosed : ∀ x ∈ V, parentsOf inh x ⊆ V) {a b : String}
    (ha : a ∈ V) (h : ReachRT inh a b) : b ∈ V := by
  induction h with
  | refl => exact ha
  | step he _ ih => exact ih (hclosed _ ha he)

/-- The successful mutation of `set_role_inheritance`:
`if role not in self._role_inheritance: self._role_inheritance[role] = []`,
then `if parent not in self._role_inheritance[role]: ... .append(parent)`. -/
def addEdge (inh : List (String × List String)) (role parent : String) :
    List (String × List String) :=
  let inh1 := if role ∈ dictKeys inh then inh else inh ++ [(role, [])]
  let ps := parentsOf inh1 role
  if parent ∈ ps then inh1 else dictSet inh1 role (ps ++ [parent])

theorem parentsOf_ensure (inh : List (String × List String)) (role : String) :
    parentsOf (if role ∈ dictKeys inh then inh else inh ++ [(role, [])]) role =
      parentsOf inh role := by
  by_cases h : role ∈ dictKeys inh
  · rw [if_pos h]
  · rw [if_neg h, parentsOf, dictGet_append_single]
    rcases hg : dictGet inh role with _ | w
    · simp [parentsOf, hg]
    · exact absurd (mem_keys_of_dictGet hg) h

theorem parentsOf_ensure_ne (inh : List (String × List String)) (role x : String)
    (hx : x ≠ role) :
    parentsOf (if role ∈ dictKeys inh then inh else inh ++ [(role, [])]) x =
      parentsOf inh x := by
  by_cases h : role ∈ dictKeys inh
  · rw [if_pos h]
  · rw [if_neg h, parentsOf, dictGet_append_single]
    rcases hg : dictGet inh x with _ | w
    · simp [parentsOf, hg, hx]
    · simp [parentsOf, hg]

theorem role_mem_keys_ensure (inh : List (String × List String)) (role : String) :
    role ∈ dictKeys (if role ∈ dictKeys inh then inh else inh ++ [(role, [])]) := by
  by_cases h : role ∈ dictKeys inh
  · rw [if_pos h]; exact h
  · rw [if_neg h]
    simp [dictKeys]

theorem parentsOf_addEdge_self (inh : List (String × List String))
    (role parent : String) :
    parentsOf (addEdge inh role parent) role =
      if parent ∈ parentsOf inh role then parentsOf inh role
      else parentsOf inh role ++ [parent] := by
  simp only [addEdge]
  rw [parentsOf_ensure]
  by_cases hp : parent ∈ parentsOf inh role
  · simp only [if_pos hp]
    rw [parentsOf_ensure]
  · simp only [if_neg hp]
    rw [parentsOf, dictGet_dictSet_self, if_pos (role_mem_keys_ensure inh role)]
    simp [parentsOf_ensure]

theorem parentsOf_addEdge_ne (inh : List (String × List String))
    (role parent x : String) (hx : x ≠ role) :
    parentsOf (addEdge inh role parent) x = parentsOf inh x := by
  simp only [addEdge]
  rw [parentsOf_ensure]
  by_cases hp : parent ∈ parentsOf inh role
  · simp only [if_pos hp]
    rw [parentsOf_ensure_ne _ _ _ hx]
  · simp only [if_neg hp]
    rw [parentsOf, dictGet_dictSet_ne _ _ _ _ hx]
    rw [← parentsOf, parentsOf_ensure_ne _ _ _ hx]

theorem edgeTo_addEdge_iff (inh : List (String × List String))
    (role parent a b : String) :
    EdgeTo (addEdge inh role parent) a b ↔
      EdgeTo inh a b ∨ (a = role ∧ b = parent) := by
  by_cases ha : a = role
  · subst ha
    unfold EdgeTo
    rw [parentsOf_addEdge_self]
    by_cases hp : parent ∈ parentsOf inh a
    · rw [if_pos hp]
      constructor
      · exact fun h => Or.inl h
      · rintro (h | ⟨_, h⟩)
        · exact h
        · exact h ▸ hp
    · rw [if_neg hp]
      constructor
      · intro h
        rcases List.mem_append.mp h with h | h
        · exact Or.inl h
        · exact Or.inr ⟨rfl, List.mem_singleton.mp h⟩
      · rintro (h | ⟨_, h⟩)
        · exact List.mem_append.mpr (Or.inl h)
        · refine List.mem_append.mpr (Or.inr ?_)
          rw [h]
          exact List.mem_singleton_self _
  · unfold EdgeTo
    rw [parentsOf_addEdge_ne _ _ _ _ ha]
    constructor
    · exact fun h => Or.inl h
    · rintro (h | ⟨h, _⟩)
      · exact h
      · exact absurd h ha

/-- Reachability in the graph with an added edge `role → parent` decomposes:
either it held before, or it goes through the new edge. -/
theorem reach_addEdge_decompose {inh : List (String × List String)}
    {role parent a b : String}
    (h : ReachRT (addEdge inh role parent) a b) :
    ReachRT inh a b ∨ (ReachRT inh a role ∧ ReachRT inh parent b) := by
  induction h with
  | refl => exact Or.inl (ReachRT.refl _)
  | step he _ ih =>
      rcases (edgeTo_addEdge_iff _ _ _ _ _).mp he with hold | ⟨ha, hb⟩
      · rcases ih with ih | ⟨ih1, ih2⟩
        · exact Or.inl (ReachRT.step hold ih)
        · exact Or.inr ⟨ReachRT.step hold ih1, ih2⟩
      · subst ha
        subst hb
        rcases ih with ih | ⟨_, ih2⟩
        · exact Or.inr ⟨ReachRT.refl _, ih⟩
        · exact Or.inr ⟨ReachRT.refl _, ih2⟩

/-- Adding an edge `role → parent` to an acyclic graph creates a cycle only
when `role` was already reachable from `parent`. -/
theorem cycle_addEdge_implies_reach {inh : List (String × List String)}
    {role parent : String} (hacyc : AcyclicInh inh)
    (hcyc : ¬ AcyclicInh (addEdge inh role parent)) :
    ReachRT inh parent role := by
  rw [AcyclicInh] at hcyc
  push_neg at hcyc
  obtain ⟨a, b, hedge, hreach⟩ := hcyc
  rcases (edgeTo_addEdge_iff _ _ _ _ _).mp hedge with hold | ⟨ha, hb⟩
  · rcases reach_addEdge_decompose hreach with hr | ⟨hr1, hr2⟩
    · exact absurd ⟨b, hold, hr⟩ (hacyc a)
    · exact hr2.trans (ReachRT.step hold hr1)
  · subst ha
    subst hb
    rcases reach_addEdge_decompose hreach with hr | ⟨_, hr2⟩
    · exact hr
    · exact hr2

/-- Conversely, if `role` is not reachable from `parent`, the extended graph
stays acyclic. -/
theorem addEdge_acyclic {inh : List (String × List String)}
    {role parent : String} (hacyc : AcyclicInh inh)
    (hreach : ¬ ReachRT inh parent role) :
    AcyclicInh (addEdge inh role parent) := by
  by_contra hcyc
  exact hreach (cycle_addEdge_implies_reach hacyc hcyc)

/-! ### `RBACService._would_create_cycle`

```
visited = set()
def check(current):
    if current == role: return True
    if current in visited: return False
    visited.add(current)
    for parent in self._role_inheritance.get(current, []):
        if check(parent): return True
    return False
return check(new_parent)
```

The embedding threads `visited` explicitly and uses recursion fuel (the
Python recursion needs none; `cycleFuel` always suffices, see
`cycleGo_adequate`). -/

/-- The `for parent in ...: if check(parent): return True` loop; `go` is the
recursive `check` at the next depth. -/
def cycleList (go : List String → String → Option (Bool × List String)) :
    List String → List String → Option (Bool × List String)
  | visited, [] => some (false, visited)
  | visited, p :: ps =>
      match go visited p with
      | none => none
      | some (true, v) => some (true, v)
      | some (false, v) => cycleList go v ps

/-- The recursive `check(current)` of `_would_create_cycle`. -/
def cycleGo (inh : List (String × List String)) (role : String) :
    Nat → List String → String → Option (Bool × List String)
  | 0, _, _ => none
  | fuel + 1, visited, current =>
      if current = role then some (true, visited)
      else if current ∈ visited then some (false, visited)
      else cycleList (cycleGo inh role fuel) (current :: visited)
            (parentsOf inh current)

/-- All role names occurring in the inheritance map. -/
def inhVerts (inh : List (String × List String)) : List String :=
  inh.flatMap (fun kv => kv.1 :: kv.2)

theorem parentsOf_subset_inhVerts (inh : List (String × List String))
    (r : String) : parentsOf inh r ⊆ inhVerts inh := by
  intro p hp
  rw [parentsOf] at hp
  rcases hg : dictGet inh r with _ | ps
  · rw [hg] at hp
    simp at hp
  · rw [hg] at hp
    simp only [Option.getD_some] at hp
    exact List.mem_flatMap.mpr ⟨(r, ps), dictGet_mem hg, by simp [hp]⟩

def cycleFuel (inh : List (String × List String)) (parent : String) : Nat :=
  (parent :: inhVerts inh).length + 1

/-- Embedding of `RBACService._would_create_cycle(role, new_parent)`.  The
`none` (out-of-fuel) branch never fires for `cycleFuel`
(`wouldCreateCycle_some`); it is mapped to `true` (reject). -/
def wouldCreateCycle (inh : List (String × List String))
    (role parent : String) : Bool :=
  match cycleGo inh role (cycleFuel inh parent) [] parent with
  | some (b, _) => b
  | none => true

/-- Closure property of the `false` answer of the DFS: the final visited set
contains the start, avoids `role`, and is closed under inheritance edges. -/
theorem cycleGo_closure (inh : List (String × List String)) (role : String) :
    ∀ fuel : Nat, ∀ vis cur V,
      cycleGo inh role fuel vis cur = some (false, V) →
      vis ⊆ V ∧ cur ∈ V ∧
        ∀ x ∈ V, x ∉ vis → x ≠ role ∧ parentsOf inh x ⊆ V := by
  intro fuel
  induction fuel with
  | zero =>
      intro vis cur V h
      exact absurd h (by simp [cycleGo])
  | succ fuel ih =>
      have hlist : ∀ ps vis V,
          cycleList (cycleGo inh role fuel) vis ps = some (false, V) →
          vis ⊆ V ∧ (∀ p ∈ ps, p ∈ V) ∧
            ∀ x ∈ V, x ∉ vis → x ≠ role ∧ parentsOf inh x ⊆ V := by
        intro ps
        induction ps with
        | nil =>
            intro vis V h
            simp only [cycleList, Option.some.injEq, Prod.mk.injEq, true_and] at h
            subst h
            refine ⟨fun x hx => hx, by simp, ?_⟩
            intro x hx hnx
            exact absurd hx hnx
        | cons p ps ihl =>
            intro vis V h
            rcases hg : cycleGo inh role fuel vis p with _ | b
            · rw [cycleList, hg] at h
              exact absurd h (by simp)
            · obtain ⟨b, v⟩ := b
              cases b with
              | true =>
                  rw [cycleList, hg] at h
                  simp at h
              | false =>
                  rw [cycleList, hg] at h
                  obtain ⟨hg1, hg2, hg3⟩ := ih vis p v hg
                  obtain ⟨hl1, hl2, hl3⟩ := ihl v V h
                  refine ⟨fun x hx => hl1 (hg1 hx), ?_, ?_⟩
                  · intro q hq
                    rcases List.mem_cons.mp hq with hq | hq
                    · exact hq ▸ hl1 hg2
                    · exact hl2 q hq
                  · intro x hx hnx
                    by_cases hxv : x ∈ v
                    · obtain ⟨hr, hp⟩ := hg3 x hxv hnx
                      exact ⟨hr, fun q hq => hl1 (hp hq)⟩
                    · exact hl3 x hx hxv
      intro vis cur V h
      by_cases hcr : cur = role
      · rw [cycleGo, if_pos hcr] at h
        simp at h
      · by_cases hcv : cur ∈ vis
        · rw [cycleGo, if_neg hcr, if_pos hcv] at h
          simp only [Option.some.injEq, Prod.mk.injEq, true_and] at h
          subst h
          refine ⟨fun x hx => hx, hcv, ?_⟩
          intro x hx hnx
          exact absurd hx hnx
        · rw [cycleGo, if_neg hcr, if_neg hcv] at h
          obtain ⟨h1, h2, h3⟩ := hlist (parentsOf inh cur) (cur :: vis) V h
          refine ⟨fun x hx => h1 (List.mem_cons_of_mem _ hx),
            h1 (List.mem_cons_self _ _), ?_⟩
          intro x hx hnx
          by_cases hxc : x = cur
          · subst hxc
            exact ⟨hcr, fun q hq => h2 q hq⟩
          · refine h3 x hx ?_
            intro hc
            rcases List.mem_cons.mp hc with hc | hc
            · exact hxc hc
            · exact hnx hc

theorem filter_not_mem_mono (verts : List String) {vis v : List String}
    (h : vis ⊆ v) :
    (verts.filter (fun x => x ∉ v)).length ≤
      (verts.filter (fun x => x ∉ vis)).length := by
  refine (List.monotone_filter_right verts ?_).length_le
  intro a ha
  simp only [decide_eq_true_eq] at ha ⊢
  exact fun hc => ha (h hc)

theorem filter_not_mem_strict (verts : List String) {vis : List String}
    {cur : String} (hc1 : cur ∈ verts) (hc2 : cur ∉ vis) :
    (verts.filter (fun x => x ∉ (cur :: vis))).length <
      (verts.filter (fun x => x ∉ vis)).length := by
  have hsub : List.Sublist (verts.filter (fun x => x ∉ (cur :: vis)))
      (verts.filter (fun x => x ∉ vis)) := by
    refine List.monotone_filter_right verts ?_
    intro a ha
    simp only [decide_eq_true_eq, List.mem_cons] at ha ⊢
    exact fun hc => ha (Or.inr hc)
  refine Nat.lt_of_le_of_ne hsub.length_le ?_
  intro heq
  have hmem : cur ∈ verts.filter (fun x => x ∉ vis) := by
    rw [List.mem_filter]
    exact ⟨hc1, by simpa using hc2⟩
  have : cur ∈ verts.filter (fun x => x ∉ (cur :: vis)) := by
    rw [hsub.eq_of_length heq]
    exact hmem
  rw [List.mem_filter] at this
  simp at this

/-- With enough fuel the DFS never runs out: `cycleGo` answers whenever the
fuel exceeds the number of unvisited vertices. -/
theorem cycleGo_adequate (inh : List (String × List String)) (role : String)
    (verts : List String) (hverts : ∀ r, parentsOf inh r ⊆ verts) :
    ∀ fuel : Nat, ∀ vis cur, cur ∈ verts →
      (verts.filter (fun x => x ∉ vis)).length < fuel →
      cycleGo inh role fuel vis cur ≠ none := by
  intro fuel
  induction fuel with
  | zero =>
      intro vis cur _ hlt
      exact absurd hlt (by simp)
  | succ fuel ih =>
      have hlist : ∀ ps vis, (∀ p ∈ ps, p ∈ verts) →
          (verts.filter (fun x => x ∉ vis)).length < fuel →
          cycleList (cycleGo inh role fuel) vis ps ≠ none := by
        intro ps
        induction ps with
        | nil =>
            intro vis _ _
            simp [cycleList]
        | cons p ps ihl =>
            intro vis hmem hlt
            rcases hg : cycleGo inh role fuel vis p with _ | b
            · exact absurd hg (ih vis p (hmem p (List.mem_cons_self _ _)) hlt)
            · obtain ⟨b, v⟩ := b
              cases b with
              | true =>
                  rw [cycleList, hg]
                  simp
              | false =>
                  rw [cycleList, hg]
                  refine ihl v (fun q hq => hmem q (List.mem_cons_of_mem _ hq)) ?_
                  have hvv := (cycleGo_closure inh role fuel vis p v hg).1
                  exact lt_of_le_of_lt (filter_not_mem_mono verts hvv) hlt
      intro vis cur hcv hlt
      by_cases hcr : cur = role
      · rw [cycleGo, if_pos hcr]
        simp
      · by_cases hvis : cur ∈ vis
        · rw [cycleGo, if_neg hcr, if_pos hvis]
          simp
        · rw [cycleGo, if_neg hcr, if_neg hvis]
          refine hlist (parentsOf inh cur) (cur :: vis)
            (fun q hq => hverts cur hq) ?_
          have hstrict := filter_not_mem_strict verts hcv hvis
          omega

/-- For the fuel used by `wouldCreateCycle` the DFS always answers. -/
theorem wouldCreateCycle_some (inh : List (String × List String))
    (role parent : String) :
    cycleGo inh role (cycleFuel inh parent) [] parent ≠ none := by
  refine cycleGo_adequate inh role (parent :: inhVerts inh) ?_
    (cycleFuel inh parent) [] parent (List.mem_cons_self _ _) ?_
  · intro r
    exact fun p hp => List.mem_cons_of_mem _ (parentsOf_subset_inhVerts inh r hp)
  · rw [cycleFuel]
    have := List.length_filter_le (fun x => x ∉ ([] : List String))
      (parent :: inhVerts inh)
    omega

/-- A `false` answer of `_would_create_cycle(role, parent)` means `role` is
not reachable from `parent` in the inheritance graph. -/
theorem wouldCreateCycle_false (inh : List (String × List String))
    {role parent : String} (h : wouldCreateCycle inh role parent = false) :
    ¬ ReachRT inh parent role := by
  rcases hg : cycleGo inh role (cycleFuel inh parent) [] parent with _ | b
  · rw [wouldCreateCycle, hg] at h
    simp at h
  · obtain ⟨b, V⟩ := b
    rw [wouldCreateCycle, hg] at h
    subst h
    obtain ⟨_, hstart, hclosed⟩ := cycleGo_closure inh role _ [] parent V hg
    intro hreach
    have hrole : role ∈ V :=
      reach_closed (fun x hx => (hclosed x hx (by simp)).2) hstart hreach
    exact (hclosed role hrole (by simp)).1 rfl

/-! ### `RBACService._get_effective_permissions` / `check`

```
all_roles = set()
def collect_roles(role):
    if role in all_roles: return
    all_roles.add(role)
    for parent in self._role_inheritance.get(role, []):
        collect_roles(parent)
for role in self._users[user]["roles"]: collect_roles(role)
```
then the white/black lists of the user and of every collected role that
exists in `_roles` are unioned.  As with the cycle DFS, the accumulator is
threaded explicitly and fuel is used (`collectFuel` always suffices,
`collectRoles_some`).  The `lru_cache` memoisation is invalidated on every
mutation and therefore transparent to the semantics. -/

/-- The `for parent in ...: collect_roles(parent)` loop (also the outer loop
over the user's direct roles); `go` is the recursive `collect_roles`. -/
def collectList (go : List String → String → Option (List String)) :
    List String → List String → Option (List String)
  | acc, [] => some acc
  | acc, r :: rs =>
      match go acc r with
      | none => none
      | some acc2 => collectList go acc2 rs

/-- The recursive `collect_roles(role)`. -/
def collectGo (inh : List (String × List String)) :
    Nat → List String → String → Option (List String)
  | 0, _, _ => none
  | fuel + 1, acc, r =>
      if r ∈ acc then some acc
      else collectList (collectGo inh fuel) (r :: acc) (parentsOf inh r)

def collectFuel (inh : List (String × List String)) (starts : List String) : Nat :=
  (starts ++ inhVerts inh).length + 1

/-- The whole role-collection phase of `_get_effective_permissions`. -/
def collectRoles (inh : List (String × List String)) (starts : List String) :
    Option (List String) :=
  collectList (collectGo inh (collectFuel inh starts)) [] starts

theorem collectList_closure {inh : List (String × List String)}
    {go : List String → String → Option (List String)}
    (hgo : ∀ acc r V, go acc r = some V →
      acc ⊆ V ∧ r ∈ V ∧ ∀ x ∈ V, x ∉ acc → parentsOf inh x ⊆ V) :
    ∀ ps acc V, collectList go acc ps = some V →
      acc ⊆ V ∧ (∀ p ∈ ps, p ∈ V) ∧
        ∀ x ∈ V, x ∉ acc → parentsOf inh x ⊆ V := by
  intro ps
  induction ps with
  | nil =>
      intro acc V h
      simp only [collectList, Option.some.injEq] at h
      subst h
      exact ⟨fun x hx => hx, by simp, fun x hx hnx => absurd hx hnx⟩
  | cons p ps ihl =>
      intro acc V h
      rcases hg : go acc p with _ | acc2
      · rw [collectList, hg] at h
        exact absurd h (by simp)
      · rw [collectList, hg] at h
        obtain ⟨hg1, hg2, hg3⟩ := hgo acc p acc2 hg
        obtain ⟨hl1, hl2, hl3⟩ := ihl acc2 V h
        refine ⟨fun x hx => hl1 (hg1 hx), ?_, ?_⟩
        · intro q hq
          rcases List.mem_cons.mp hq with hq | hq
          · exact hq ▸ hl1 hg2
          · exact hl2 q hq
        · intro x hx hnx
          by_cases hxa : x ∈ acc2
          · exact fun q hq => hl1 (hg3 x hxa hnx hq)
          · exact hl3 x hx hxa

theorem collectGo_closure (inh : List (String × List String)) :
    ∀ fuel : Nat, ∀ acc r V, collectGo inh fuel acc r = some V →
      acc ⊆ V ∧ r ∈ V ∧ ∀ x ∈ V, x ∉ acc → parentsOf inh x ⊆ V := by
  intro fuel
  induction fuel with
  | zero =>
      intro acc r V h
      exact absurd h (by simp [collectGo])
  | succ fuel ih =>
      intro acc r V h
      by_cases hr : r ∈ acc
      · rw [collectGo, if_pos hr] at h
        simp only [Option.some.injEq] at h
        subst h
        exact ⟨fun x hx => hx, hr, fun x hx hnx => absurd hx hnx⟩
      · rw [collectGo, if_neg hr] at h
        obtain ⟨h1, h2, h3⟩ := collectList_closure ih _ _ _ h
        refine ⟨fun x hx => h1 (List.mem_cons_of_mem _ hx),
          h1 (List.mem_cons_self _ _), ?_⟩
        intro x hx hnx
        by_cases hxr : x = r
        · exact hxr ▸ fun q hq => h2 q hq
        · refine h3 x hx ?_
          intro hc
          rcases List.mem_cons.mp hc with hc | hc
          · exact hxr hc
          · exact hnx hc

theorem collectList_sound {inh : List (String × List String)}
    {go : List String → String → Option (List String)}
    (hgo : ∀ acc r V, go acc r = some V →
      ∀ x ∈ V, x ∈ acc ∨ ReachRT inh r x) :
    ∀ ps acc V, collectList go acc ps = some V →
      ∀ x ∈ V, x ∈ acc ∨ ∃ p ∈ ps, ReachRT inh p x := by
  intro ps
  induction ps with
  | nil =>
      intro acc V h x hx
      simp only [collectList, Option.some.injEq] at h
      subst h
      exact Or.inl hx
  | cons p ps ihl =>
      intro acc V h x hx
      rcases hg : go acc p with _ | acc2
      · rw [collectList, hg] at h
        exact absurd h (by simp)
      · rw [collectList, hg] at h
        rcases ihl acc2 V h x hx with hx2 | ⟨q, hq, hr⟩
        · rcases hgo acc p acc2 hg x hx2 with hx3 | hr
          · exact Or.inl hx3
          · exact Or.inr ⟨p, List.mem_cons_self _ _, hr⟩
        · exact Or.inr ⟨q, List.mem_cons_of_mem _ hq, hr⟩

theorem collectGo_sound (inh : List (String × List String)) :
    ∀ fuel : Nat, ∀ acc r V, collectGo inh fuel acc r = some V →
      ∀ x ∈ V, x ∈ acc ∨ ReachRT inh r x := by
  intro fuel
  induction fuel with
  | zero =>
      intro acc r V h
      exact absurd h (by simp [collectGo])
  | succ fuel ih =>
      intro acc r V h x hx
      by_cases hr : r ∈ acc
      · rw [collectGo, if_pos hr] at h
        simp only [Option.some.injEq] at h
        subst h
        exact Or.inl hx
      · rw [collectGo, if_neg hr] at h
        rcases collectList_sound ih _ _ _ h x hx with hx2 | ⟨p, hp, hre⟩
        · rcases List.mem_cons.mp hx2 with hx3 | hx3
          · exact Or.inr (hx3 ▸ ReachRT.refl _)
          · exact Or.inl hx3
        · exact Or.inr (ReachRT.step hp hre)

theorem collectList_adequate
    {go : List String → String → Option (List String)}
    (verts : List String) (N : Nat)
    (hgoA : ∀ acc r, r ∈ verts →
      (verts.filter (fun x => x ∉ acc)).length < N → go acc r ≠ none)
    (hgoC : ∀ acc r V, go acc r = some V → acc ⊆ V) :
    ∀ ps acc, (∀ p ∈ ps, p ∈ verts) →
      (verts.filter (fun x => x ∉ acc)).length < N →
      collectList go acc ps ≠ none := by
  intro ps
  induction ps with
  | nil =>
      intro acc _ _
      simp [collectList]
  | cons p ps ihl =>
      intro acc hmem hlt
      rcases hg : go acc p with _ | acc2
      · exact absurd hg (hgoA acc p (hmem p (List.mem_cons_self _ _)) hlt)
      · rw [collectList, hg]
        refine ihl acc2 (fun q hq => hmem q (List.mem_cons_of_mem _ hq)) ?_
        exact lt_of_le_of_lt (filter_not_mem_mono verts (hgoC acc p acc2 hg)) hlt

theorem collectGo_adequate (inh : List (String × List String))
    (verts : List String) (hverts : ∀ r, parentsOf inh r ⊆ verts) :
    ∀ fuel : Nat, ∀ acc r, r ∈ verts →
      (verts.filter (fun x => x ∉ acc)).length < fuel →
      collectGo inh fuel acc r ≠ none := by
  intro fuel
  induction fuel with
  | zero =>
      intro acc r _ hlt
      exact absurd hlt (by simp)
  | succ fuel ih =>
      intro acc r hrv hlt
      by_cases hr : r ∈ acc
      · rw [collectGo, if_pos hr]
        simp
      · rw [collectGo, if_neg hr]
        refine collectList_adequate verts fuel ih
          (fun a p V hg => (collectGo_closure inh fuel a p V hg).1)
          (parentsOf inh r) (r :: acc) (fun q hq => hverts r hq) ?_
        have hstrict := filter_not_mem_strict verts hrv hr
        omega

/-- The role collection always answers with the fuel it is given. -/
theorem collectRoles_some (inh : List (String × List String))
    (starts : List String) : collectRoles inh starts ≠ none := by
  refine collectList_adequate (starts ++ inhVerts inh) (collectFuel inh starts)
    ?_ ?_ starts [] ?_ ?_
  · intro acc r hr hlt
    exact collectGo_adequate inh (starts ++ inhVerts inh)
      (fun q p hp => List.mem_append_right _ (parentsOf_subset_inhVerts inh q hp))
      (collectFuel inh starts) acc r hr hlt
  · intro acc r V hg
    exact (collectGo_closure inh _ acc r V hg).1
  · intro p hp
    exact List.mem_append_left _ hp
  · rw [collectFuel]
    have := List.length_filter_le (fun x => x ∉ ([] : List String))
      (starts ++ inhVerts inh)
    omega

/-- Membership in the collected role set is exactly transitive role
reachability from one of the start roles. -/
theorem collectRoles_mem (inh : List (String × List String))
    (starts : List String) {V : List String}
    (h : collectRoles inh starts = some V) :
    ∀ x, x ∈ V ↔ ∃ r0 ∈ starts, ReachRT inh r0 x := by
  intro x
  constructor
  · intro hx
    rcases collectList_sound (collectGo_sound inh (collectFuel inh starts))
        starts [] V h x hx with hc | hc
    · exact absurd hc (by simp)
    · exact hc
  · rintro ⟨r0, hr0, hreach⟩
    obtain ⟨_, hstarts, hclosed⟩ :=
      collectList_closure (collectGo_closure inh (collectFuel inh starts))
        starts [] V h
    exact reach_closed (fun y hy => hclosed y hy (by simp)) (hstarts r0 hr0) hreach

/-! ### RBAC operations

Each Python method raising `ValueError` is an `Except`-valued function; the
source performs all validity checks before any mutation, so an error leaves
the state untouched (`applyRbacOp` below realises this for sequences). -/

/-- `add_permission(path)`: the trie (`rbac/trie.py`, not under `src/`) is
modelled from the spec as the set of stored paths. -/
def add_permission (st : RBACState) (path : String) : RBACState :=
  if path ∈ st.permissions then st
  else { st with permissions := setAdd st.permissions path }

/-- `remove_permission(path)`. -/
def remove_permission (st : RBACState) (path : String) : RBACState :=
  { st with permissions := setDiscard st.permissions path }

/-- `add_role(role, exist_ok)`. -/
def add_role (st : RBACState) (role : String) (existOk : Bool) :
    Except String RBACState :=
  if role ∈ dictKeys st.roles then
    if existOk then .ok st else .error "role exists"
  else
    .ok { st with
      roles := st.roles ++ [(role, ⟨[], []⟩)],
      roleUsers := st.roleUsers ++ [(role, [])] }

/-- The loop body of `remove_role` over `self._role_inheritance.values()`:
`if role in parents: parents.remove(role)`. -/
def eraseParent (role : String) (ps : List String) : List String :=
  if role ∈ ps then ps.erase role else ps

/-- `remove_role(role)`: drop the role's inheritance entry, erase it from all
parent lists, remove it from its users' role lists, and delete it from the
role and role-user maps. -/
def remove_role (st : RBACState) (role : String) : Except String RBACState :=
  if role ∉ dictKeys st.roles then .error "role missing"
  else
    let inh2 := (dictRemove st.roleInheritance role).map
      (fun kv => (kv.1, eraseParent role kv.2))
    let us := (dictGet st.roleUsers role).getD []
    let users2 := st.users.map (fun kv =>
      if kv.1 ∈ us then (kv.1, { kv.2 with roles := kv.2.roles.erase role })
      else kv)
    .ok { st with
      roleInheritance := inh2,
      users := users2,
      roles := dictRemove st.roles role,
      roleUsers := dictRemove st.roleUsers role }

/-- `set_role_inheritance(role, parent)`. -/
def set_role_inheritance (st : RBACState) (role parent : String) :
    Except String RBACState :=
  if role ∉ dictKeys st.roles then .error "role missing"
  else if parent ∉ dictKeys st.roles then .error "parent missing"
  else if role = parent then .error "self inheritance"
  else if wouldCreateCycle st.roleInheritance role parent then
    .error "cycle detected"
  else .ok { st with roleInheritance := addEdge st.roleInheritance role parent }

/-- `add_user(user, exist_ok)`: a fresh user starts with empty lists and the
default role (if any); it is also added to the default role's user set when
that set exists. -/
def add_user (st : RBACState) (user : String) (existOk : Bool) :
    Except String RBACState :=
  if user ∈ dictKeys st.users then
    if existOk then .ok st else .error "user exists"
  else
    let roles := match st.defaultRole with | some r => [r] | none => []
    let st1 := { st with users := st.users ++ [(user, ⟨[], [], roles⟩)] }
    match st.defaultRole with
    | some r =>
        if r ∈ dictKeys st.roleUsers then
          .ok { st1 with
                roleUsers := dictSet st1.roleUsers r
                  (setAdd ((dictGet st1.roleUsers r).getD []) user) }
        else .ok st1
    | none => .ok st1

/-- `remove_user(user)`. -/
def remove_user (st : RBACState) (user : String) : Except String RBACState :=
  match dictGet st.users user with
  | none => .error "user missing"
  | some ud =>
      let roleUsers2 := st.roleUsers.map (fun kv =>
        if kv.1 ∈ ud.roles then (kv.1, setDiscard kv.2 user) else kv)
      .ok { st with users := dictRemove st.users user, roleUsers := roleUsers2 }

/-- `assign_role("user", user, role, create_user)`. -/
def assign_role (st : RBACState) (user role : String) (createUser : Bool) :
    Except String RBACState :=
  match (if user ∈ dictKeys st.users then Except.ok st
         else if createUser then add_user st user false
         else Except.error "user missing") with
  | .error e => .error e
  | .ok st1 =>
      if role ∉ dictKeys st1.roles then .error "role missing"
      else
        match dictGet st1.users user with
        | none => .error "user missing"
        | some ud =>
            if role ∈ ud.roles then .ok st1
            else
              .ok { st1 with
                users := dictSet st1.users user { ud with roles := ud.roles ++ [role] },
                roleUsers := dictSet st1.roleUsers role
                  (setAdd ((dictGet st1.roleUsers role).getD []) user) }

/-- `unassign_role("user", user, role)`. -/
def unassign_role (st : RBACState) (user role : String) :
    Except String RBACState :=
  match dictGet st.users user with
  | none => .error "user missing"
  | some ud =>
      if role ∈ ud.roles then
        .ok { st with
          users := dictSet st.users user { ud with roles := ud.roles.erase role },
          roleUsers := dictSet st.roleUsers role
            (setDiscard ((dictGet st.roleUsers role).getD []) user) }
      else .ok st

/-- Target selector of `grant`/`revoke` (`target_type`). -/
inductive TargetType where
  | user
  | role
  deriving DecidableEq, Repr

/-- `grant(target_type, target, permission, mode, create_permission)`;
`white = true` is `mode="white"`.  The permission is added to the list named
by the mode and discarded from the opposite list. -/
def grant (st : RBACState) (tt : TargetType) (target permission : String)
    (white : Bool) (createPermission : Bool) : Except String RBACState :=
  match (if permission ∈ st.permissions then some st
         else if createPermission then some (add_permission st permission)
         else none) with
  | none => .error "permission missing"
  | some st1 =>
      match tt with
      | .user =>
          match dictGet st1.users target with
          | none => .error "user missing"
          | some ud =>
              let ud2 := if white then
                  { ud with whitelist := setAdd ud.whitelist permission,
                            blacklist := setDiscard ud.blacklist permission }
                else
                  { ud with blacklist := setAdd ud.blacklist permission,
                            whitelist := setDiscard ud.whitelist permission }
              .ok { st1 with users := dictSet st1.users target ud2 }
      | .role =>
          match dictGet st1.roles target with
          | none => .error "role missing"
          | some pl =>
              let pl2 := if white then
                  PermLists.mk (setAdd pl.whitelist permission)
                    (setDiscard pl.blacklist permission)
                else
                  PermLists.mk (setDiscard pl.whitelist permission)
                    (setAdd pl.blacklist permission)
              .ok { st1 with roles := dictSet st1.roles target pl2 }

/-- `revoke(target_type, target, permission)`: discard from both lists. -/
def revoke (st : RBACState) (tt : TargetType) (target permission : String) :
    Except String RBACState :=
  match tt with
  | .user =>
      match dictGet st.users target with
      | none => .error "user missing"
      | some ud =>
          .ok { st with
                users := dictSet st.users target
                  { ud with whitelist := setDiscard ud.whitelist permission,
                            blacklist := setDiscard ud.blacklist permission } }
  | .role =>
      match dictGet st.roles target with
      | none => .error "role missing"
      | some pl =>
          .ok { st with
                roles := dictSet st.roles target
                  (PermLists.mk (setDiscard pl.whitelist permission)
                    (setDiscard pl.blacklist permission)) }

/-- `_get_effective_permissions(user)`: the user's own lists unioned with the
lists of every transitively collected role that exists in `_roles`. -/
def effectivePermissions (st : RBACState) (user : String) : PermLists :=
  match dictGet st.users user with
  | none => ⟨[], []⟩
  | some ud =>
      match collectRoles st.roleInheritance ud.roles with
      | none => ⟨ud.whitelist, ud.blacklist⟩
      | some rs =>
          { whitelist := ud.whitelist ++ rs.flatMap (fun r =>
              match dictGet st.roles r with
              | some pl => pl.whitelist
              | none => []),
            blacklist := ud.blacklist ++ rs.flatMap (fun r =>
              match dictGet st.roles r with
              | some pl => pl.blacklist
              | none => []) }

/-- `check(user, permission)` with the default `create_user=True`:
blacklist first, then whitelist, else deny.  Returns the (possibly
user-extended) state together with the decision. -/
def check (st : RBACState) (user permission : String) :
    Except String (RBACState × Bool) :=
  match (if user ∈ dictKeys st.users then Except.ok st
         else add_user st user false) with
  | .error e => .error e
  | .ok st1 =>
      let perms := effectivePermissions st1 user
      if perms.blacklist.any (fun b => permMatches b permission) then
        .ok (st1, false)
      else if perms.whitelist.any (fun w => permMatches w permission) then
        .ok (st1, true)
      else .ok (st1, false)

/-- The RBAC mutations, for stating state invariants over op sequences. -/
inductive RbacOp where
  | addPermission (path : String)
  | removePermission (path : String)
  | addRole (role : String) (existOk : Bool)
  | removeRole (role : String)
  | setRoleInheritance (role parent : String)
  | addUser (user : String) (existOk : Bool)
  | removeUser (user : String)
  | assignRole (user role : String) (createUser : Bool)
  | unassignRole (user role : String)
  | grantOp (tt : TargetType) (target permission : String)
      (white createPermission : Bool)
  | revokeOp (tt : TargetType) (target permission : String)
  | checkOp (user permission : String)

/-- Apply one operation; a raised `ValueError` propagates to the caller and
leaves the service state unchanged (the source checks before mutating). -/
def applyRbacOp (st : RBACState) : RbacOp → RBACState
  | .addPermission p => add_permission st p
  | .removePermission p => remove_permission st p
  | .addRole r ok => match add_role st r ok with | .ok st' => st' | .error _ => st
  | .removeRole r => match remove_role st r with | .ok st' => st' | .error _ => st
  | .setRoleInheritance r p =>
      match set_role_inheritance st r p with | .ok st' => st' | .error _ => st
  | .addUser u ok => match add_user st u ok with | .ok st' => st' | .error _ => st
  | .removeUser u => match remove_user st u with | .ok st' => st' | .error _ => st
  | .assignRole u r c =>
      match assign_role st u r c with | .ok st' => st' | .error _ => st
  | .unassignRole u r =>
      match unassign_role st u r with | .ok st' => st' | .error _ => st
  | .grantOp tt t p w c =>
      match grant st tt t p w c with | .ok st' => st' | .error _ => st
  | .revokeOp tt t p =>
      match revoke st tt t p with | .ok st' => st' | .error _ => st
  | .checkOp u p =>
      match check st u p with | .ok r => r.1 | .error _ => st

def runRbacOps (st : RBACState) (ops : List RbacOp) : RBACState :=
  ops.foldl applyRbacOp st

theorem mem_setAdd {l : List String} {x y : String} :
    x ∈ setAdd l y ↔ x = y ∨ x ∈ l := by
  unfold setAdd
  split
  · constructor
    · exact fun h => Or.inr h
    · rintro (h | h)
      · subst h
        assumption
      · exact h
  · simp [List.mem_cons]

theorem mem_setDiscard {l : List String} {x y : String} :
    x ∈ setDiscard l y ↔ x ∈ l ∧ x ≠ y := by
  unfold setDiscard
  rw [List.mem_filter]
  simp

theorem parentsOf_mapValues (l : List (String × List String))
    (f : List String → List String) (x : String) :
    parentsOf (l.map (fun kv => (kv.1, f kv.2))) x =
      (match dictGet l x with
       | some ps => f ps
       | none => []) := by
  induction l with
  | nil => simp [parentsOf, dictGet]
  | cons kv rest ih =>
      by_cases h : kv.1 = x
      · simp [parentsOf, dictGet, h]
      · simp only [List.map_cons, parentsOf, dictGet, if_neg h]
        exact ih

theorem add_role_inh {st : RBACState} {r : String} {ok : Bool} {st' : RBACState}
    (h : add_role st r ok = .ok st') :
    st'.roleInheritance = st.roleInheritance := by
  unfold add_role at h
  split at h
  · split at h
    · cases h
      rfl
    · exact Except.noConfusion h
  · cases h
    rfl

theorem add_user_inh {st : RBACState} {u : String} {ok : Bool} {st' : RBACState}
    (h : add_user st u ok = .ok st') :
    st'.roleInheritance = st.roleInheritance := by
  unfold add_user at h
  split at h
  · split at h
    · cases h
      rfl
    · exact Except.noConfusion h
  · split at h
    · split at h
      · cases h
        rfl
      · cases h
        rfl
    · cases h
      rfl

theorem remove_user_inh {st : RBACState} {u : String} {st' : RBACState}
    (h : remove_user st u = .ok st') :
    st'.roleInheritance = st.roleInheritance := by
  unfold remove_user at h
  split at h
  · exact Except.noConfusion h
  · cases h
    rfl

theorem assign_role_inh {st : RBACState} {u r : String} {c : Bool}
    {st' : RBACState} (h : assign_role st u r c = .ok st') :
    st'.roleInheritance = st.roleInheritance := by
  unfold assign_role at h
  split at h
  · exact Except.noConfusion h
  case _ st1 heq =>
    have h1 : st1.roleInheritance = st.roleInheritance := by
      split at heq
      · cases heq
        rfl
      · split at heq
        · exact add_user_inh heq
        · exact Except.noConfusion heq
    split at h
    · exact Except.noConfusion h
    · split at h
      · exact Except.noConfusion h
      · split at h
        · cases h
          exact h1
        · cases h
          exact h1

theorem unassign_role_inh {st : RBACState} {u r : String} {st' : RBACState}
    (h : unassign_role st u r = .ok st') :
    st'.roleInheritance = st.roleInheritance := by
  unfold unassign_role at h
  split at h
  · exact Except.noConfusion h
  · split at h
    · cases h
      rfl
    · cases h
      rfl

theorem add_permission_inh (st : RBACState) (p : String) :
    (add_permission st p).roleInheritance = st.roleInheritance := by
  unfold add_permission
  split <;> rfl

theorem grant_inh {st : RBACState} {tt : TargetType} {t p : String}
    {w c : Bool} {st' : RBACState} (h : grant st tt t p w c = .ok st') :
    st'.roleInheritance = st.roleInheritance := by
  unfold grant at h
  split at h
  · exact Except.noConfusion h
  case _ st1 heq =>
    have h1 : st1.roleInheritance = st.roleInheritance := by
      split at heq
      · cases heq
        rfl
      · split at heq
        · cases heq
          exact add_permission_inh st p
        · exact Option.noConfusion heq
    split at h
    · split at h
      · exact Except.noConfusion h
      · cases h
        exact h1
    · split at h
      · exact Except.noConfusion h
      · cases h
        exact h1

theorem revoke_inh {st : RBACState} {tt : TargetType} {t p : String}
    {st' : RBACState} (h : revoke st tt t p = .ok st') :
    st'.roleInheritance = st.roleInheritance := by
  unfold revoke at h
  split at h
  · split at h
    · exact Except.noConfusion h
    · cases h
      rfl
  · split at h
    · exact Except.noConfusion h
    · cases h
      rfl

theorem check_inh {st : RBACState} {u p : String} {r : RBACState × Bool}
    (h : check st u p = .ok r) :
    r.1.roleInheritance = st.roleInheritance := by
  unfold check at h
  split at h
  · exact Except.noConfusion h
  case _ st1 heq =>
    have h1 : st1.roleInheritance = st.roleInheritance := by
      split at heq
      · cases heq
        rfl
      · exact add_user_inh heq
    simp only [] at h
    split at h
    · cases h
      exact h1
    · split at h
      · cases h
        exact h1
      · cases h
        exact h1

/-- Every RBAC operation preserves acyclicity of the inheritance graph. -/
theorem applyRbacOp_acyclic (st : RBACState) (op : RbacOp)
    (h : AcyclicInh st.roleInheritance) :
    AcyclicInh (applyRbacOp st op).roleInheritance := by
  cases op with
  | addPermission p =>
      rw [show (applyRbacOp st (.addPermission p)).roleInheritance =
        st.roleInheritance from add_permission_inh st p]
      exact h
  | removePermission p => exact h
  | addRole r ok =>
      rcases hg : add_role st r ok with e | st'
      · simp only [applyRbacOp, hg]
        exact h
      · simp only [applyRbacOp, hg]
        rw [add_role_inh hg]
        exact h
  | removeRole r =>
      rcases hg : remove_role st r with e | st'
      · simp only [applyRbacOp, hg]
        exact h
      · simp only [applyRbacOp, hg]
        unfold remove_role at hg
        split at hg
        · exact Except.noConfusion hg
        · cases hg
          refine AcyclicInh.anti ?_ h
          intro x
          rw [parentsOf_mapValues _ (eraseParent r) x, dictGet_dictRemove]
          by_cases hx : x = r
          · simp [hx]
          · rw [if_neg hx]
            rcases hgx : dictGet st.roleInheritance x with _ | ps
            · simp
            · simp only [parentsOf, hgx, Option.getD_some]
              unfold eraseParent
              split
              · exact fun q hq => List.mem_of_mem_erase hq
              · exact fun q hq => hq
  | setRoleInheritance r p =>
      rcases hg : set_role_inheritance st r p with e | st'
      · simp only [applyRbacOp, hg]
        exact h
      · simp only [applyRbacOp, hg]
        unfold set_role_inheritance at hg
        split at hg
        · exact Except.noConfusion hg
        · split at hg
          · exact Except.noConfusion hg
          · split at hg
            · exact Except.noConfusion hg
            · split at hg
              · exact Except.noConfusion hg
              case _ h4 =>
                cases hg
                refine addEdge_acyclic h (wouldCreateCycle_false _ ?_)
                exact Bool.not_eq_true _ ▸ Bool.of_not_eq_true h4
  | addUser u ok =>
      rcases hg : add_user st u ok with e | st'
      · simp only [applyRbacOp, hg]
        exact h
      · simp only [applyRbacOp, hg]
        rw [add_user_inh hg]
        exact h
  | removeUser u =>
      rcases hg : remove_user st u with e | st'
      · simp only [applyRbacOp, hg]
        exact h
      · simp only [applyRbacOp, hg]
        rw [remove_user_inh hg]
        exact h
  | assignRole u r c =>
      rcases hg : assign_role st u r c with e | st'
      · simp only [applyRbacOp, hg]
        exact h
      · simp only [applyRbacOp, hg]
        rw [assign_role_inh hg]
        exact h
  | unassignRole u r =>
      rcases hg : unassign_role st u r with e | st'
      · simp only [applyRbacOp, hg]
        exact h
      · simp only [applyRbacOp, hg]
        rw [unassign_role_inh hg]
        exact h
  | grantOp tt t p w c =>
      rcases hg : grant st tt t p w c with e | st'
      · simp only [applyRbacOp, hg]
        exact h
      · simp only [applyRbacOp, hg]
        rw [grant_inh hg]
        exact h
  | revokeOp tt t p =>
      rcases hg : revoke st tt t p with e | st'
      · simp only [applyRbacOp, hg]
        exact h
      · simp only [applyRbacOp, hg]
        rw [revoke_inh hg]
        exact h
  | checkOp u p =>
      rcases hg : check st u p with e | r
      · simp only [applyRbacOp, hg]
        exact h
      · simp only [applyRbacOp, hg]
        rw [check_inh hg]
        exact h

theorem runRbacOps_acyclic (st : RBACState) (ops : List RbacOp)
    (h : AcyclicInh st.roleInheritance) :
    AcyclicInh (runRbacOps st ops).roleInheritance := by
  induction ops generalizing st with
  | nil => exact h
  | cons op rest ih =>
      exact ih _ (applyRbacOp_acyclic st op h)

theorem initRBAC_acyclic (d : Option String) :
    AcyclicInh (initRBAC d).roleInheritance := by
  rintro a ⟨b, hedge, _⟩
  simp [initRBAC, EdgeTo, parentsOf, dictGet] at hedge

theorem set_role_inheritance_rejects (st : RBACState) (role parent : String)
    (hreach : ReachRT st.roleInheritance parent role) :
    ∃ e, set_role_inheritance st role parent = .error e := by
  unfold set_role_inheritance
  by_cases h1 : role ∉ dictKeys st.roles
  · rw [if_pos h1]
    exact ⟨_, rfl⟩
  · rw [if_neg h1]
    by_cases h2 : parent ∉ dictKeys st.roles
    · rw [if_pos h2]
      exact ⟨_, rfl⟩
    · rw [if_neg h2]
      by_cases h3 : role = parent
      · rw [if_pos h3]
        exact ⟨_, rfl⟩
      · rw [if_neg h3]
        cases hb : wouldCreateCycle st.roleInheritance role parent
        · exact absurd hreach (wouldCreateCycle_false _ hb)
        · simp only [hb, if_true]
          exact ⟨_, rfl⟩

/-! ### Whitelist/blacklist disjointness -/

/-- Every role's and every user's whitelist and blacklist are disjoint. -/
def DisjointWB (st : RBACState) : Prop :=
  (∀ kv ∈ st.roles, ∀ x ∈ kv.2.whitelist, x ∉ kv.2.blacklist) ∧
  (∀ kv ∈ st.users, ∀ x ∈ kv.2.whitelist, x ∉ kv.2.blacklist)

theorem add_user_disjoint {st : RBACState} {u : String} {ok : Bool}
    {st' : RBACState} (hg : add_user st u ok = .ok st')
    (h : DisjointWB st) : DisjointWB st' := by
  obtain ⟨hr, hu⟩ := h
  have husers : ∀ roles0 : List String,
      ∀ kv ∈ st.users ++ [(u, UserData.mk [] [] roles0)],
      ∀ x ∈ kv.2.whitelist, x ∉ kv.2.blacklist := by
    intro roles0 kv hkv
    rcases List.mem_append.mp hkv with hkv | hkv
    · exact hu kv hkv
    · rw [List.mem_singleton] at hkv
      subst hkv
      intro x hx
      simp at hx
  unfold add_user at hg
  split at hg
  · split at hg
    · cases hg
      exact ⟨hr, hu⟩
    · exact Except.noConfusion hg
  · split at hg
    · split at hg
      · cases hg
        exact ⟨hr, husers _⟩
      · cases hg
        exact ⟨hr, husers _⟩
    · cases hg
      exact ⟨hr, husers _⟩

theorem applyRbacOp_disjoint (st : RBACState) (op : RbacOp)
    (h : DisjointWB st) : DisjointWB (applyRbacOp st op) := by
  obtain ⟨hr, hu⟩ := h
  cases op with
  | addPermission p =>
      show DisjointWB (add_permission st p)
      unfold add_permission
      split
      · exact ⟨hr, hu⟩
      · exact ⟨hr, hu⟩
  | removePermission p => exact ⟨hr, hu⟩
  | addRole r ok =>
      rcases hg : add_role st r ok with e | st'
      · simp only [applyRbacOp, hg]
        exact ⟨hr, hu⟩
      · simp only [applyRbacOp, hg]
        unfold add_role at hg
        split at hg
        · split at hg
          · cases hg
            exact ⟨hr, hu⟩
          · exact Except.noConfusion hg
        · cases hg
          refine ⟨?_, hu⟩
          intro kv hkv
          rcases List.mem_append.mp hkv with hkv | hkv
          · exact hr kv hkv
          · rw [List.mem_singleton] at hkv
            subst hkv
            intro x hx
            simp at hx
  | removeRole r =>
      rcases hg : remove_role st r with e | st'
      · simp only [applyRbacOp, hg]
        exact ⟨hr, hu⟩
      · simp only [applyRbacOp, hg]
        unfold remove_role at hg
        split at hg
        · exact Except.noConfusion hg
        · cases hg
          constructor
          · intro kv hkv
            exact hr kv ((List.filter_sublist _).subset hkv)
          · intro kv hkv
            rcases List.mem_map.mp hkv with ⟨kv0, hkv0, hmap⟩
            by_cases hm : kv0.1 ∈ (dictGet st.roleUsers r).getD []
            · rw [if_pos hm] at hmap
              subst hmap
              exact hu kv0 hkv0
            · rw [if_neg hm] at hmap
              subst hmap
              exact hu kv0 hkv0
  | setRoleInheritance r p =>
      rcases hg : set_role_inheritance st r p with e | st'
      · simp only [applyRbacOp, hg]
        exact ⟨hr, hu⟩
      · simp only [applyRbacOp, hg]
        unfold set_role_inheritance at hg
        split at hg
        · exact Except.noConfusion hg
        · split at hg
          · exact Except.noConfusion hg
          · split at hg
            · exact Except.noConfusion hg
            · split at hg
              · exact Except.noConfusion hg
              · cases hg
                exact ⟨hr, hu⟩
  | addUser u ok =>
      rcases hg : add_user st u ok with e | st'
      · simp only [applyRbacOp, hg]
        exact ⟨hr, hu⟩
      · simp only [applyRbacOp, hg]
        exact add_user_disjoint hg ⟨hr, hu⟩
  | removeUser u =>
      rcases hg : remove_user st u with e | st'
      · simp only [applyRbacOp, hg]
        exact ⟨hr, hu⟩
      · simp only [applyRbacOp, hg]
        unfold remove_user at hg
        split at hg
        · exact Except.noConfusion hg
        · cases hg
          refine ⟨hr, ?_⟩
          intro kv hkv
          exact hu kv ((List.filter_sublist _).subset hkv)
  | assignRole u r c =>
      rcases hg : assign_role st u r c with e | st'
      · simp only [applyRbacOp, hg]
        exact ⟨hr, hu⟩
      · simp only [applyRbacOp, hg]
        unfold assign_role at hg
        split at hg
        · exact Except.noConfusion hg
        case _ st1 heq =>
          have h1 : DisjointWB st1 := by
            split at heq
            · cases heq
              exact ⟨hr, hu⟩
            · split at heq
              · exact add_user_disjoint heq ⟨hr, hu⟩
              · exact Except.noConfusion heq
          obtain ⟨hr1, hu1⟩ := h1
          split at hg
          · exact Except.noConfusion hg
          · split at hg
            · exact Except.noConfusion hg
            case _ ud hud =>
              split at hg
              · cases hg
                exact ⟨hr1, hu1⟩
              · cases hg
                refine ⟨hr1, ?_⟩
                intro kv hkv
                rcases mem_dictSet hkv with hkv | hkv
                · subst hkv
                  exact hu1 (u, ud) (dictGet_mem hud)
                · exact hu1 kv hkv
  | unassignRole u r =>
      rcases hg : unassign_role st u r with e | st'
      · simp only [applyRbacOp, hg]
        exact ⟨hr, hu⟩
      · simp only [applyRbacOp, hg]
        unfold unassign_role at hg
        split at hg
        · exact Except.noConfusion hg
        case _ ud hud =>
          split at hg
          · cases hg
            refine ⟨hr, ?_⟩
            intro kv hkv
            rcases mem_dictSet hkv with hkv | hkv
            · subst hkv
              exact hu (u, ud) (dictGet_mem hud)
            · exact hu kv hkv
          · cases hg
            exact ⟨hr, hu⟩
  | grantOp tt t p w c =>
      rcases hg : grant st tt t p w c with e | st'
      · simp only [applyRbacOp, hg]
        exact ⟨hr, hu⟩
      · simp only [applyRbacOp, hg]
        unfold grant at hg
        split at hg
        · exact Except.noConfusion hg
        case _ st1 heq =>
          have h1 : DisjointWB st1 := by
            split at heq
            · cases heq
              exact ⟨hr, hu⟩
            · split at heq
              · cases heq
                unfold add_permission
                split
                · exact ⟨hr, hu⟩
                · exact ⟨hr, hu⟩
              · exact Option.noConfusion heq
          obtain ⟨hr1, hu1⟩ := h1
          split at hg
          · split at hg
            · exact Except.noConfusion hg
            case _ ud hud =>
              cases hg
              refine ⟨hr1, ?_⟩
              intro kv hkv
              rcases mem_dictSet hkv with hkv | hkv
              · subst hkv
                cases w with
                | true =>
                    intro x hx hxb
                    simp only [if_pos rfl] at hx hxb
                    rcases mem_setAdd.mp hx with hx | hx
                    · subst hx
                      exact (mem_setDiscard.mp hxb).2 rfl
                    · exact hu1 (t, ud) (dictGet_mem hud) x hx
                        (mem_setDiscard.mp hxb).1
                | false =>
                    intro x hx hxb
                    simp only [Bool.false_eq_true, if_neg] at hx hxb
                    rcases mem_setAdd.mp hxb with hxb | hxb
                    · subst hxb
                      exact absurd rfl (mem_setDiscard.mp hx).2
                    · exact hu1 (t, ud) (dictGet_mem hud) x
                        (mem_setDiscard.mp hx).1 hxb
              · exact hu1 kv hkv
          · split at hg
            · exact Except.noConfusion hg
            case _ pl hpl =>
              cases hg
              refine ⟨?_, hu1⟩
              intro kv hkv
              rcases mem_dictSet hkv with hkv | hkv
              · subst hkv
                cases w with
                | true =>
                    intro x hx hxb
                    simp only [if_pos rfl] at hx hxb
                    rcases mem_setAdd.mp hx with hx | hx
                    · subst hx
                      exact (mem_setDiscard.mp hxb).2 rfl
                    · exact hr1 (t, pl) (dictGet_mem hpl) x hx
                        (mem_setDiscard.mp hxb).1
                | false =>
                    intro x hx hxb
                    simp only [Bool.false_eq_true, if_neg] at hx hxb
                    rcases mem_setAdd.mp hxb with hxb | hxb
                    · subst hxb
                      exact absurd rfl (mem_setDiscard.mp hx).2
                    · exact hr1 (t, pl) (dictGet_mem hpl) x
                        (mem_setDiscard.mp hx).1 hxb
              · exact hr1 kv hkv
  | revokeOp tt t p =>
      rcases hg : revoke st tt t p with e | st'
      · simp only [applyRbacOp, hg]
        exact ⟨hr, hu⟩
      · simp only [applyRbacOp, hg]
        unfold revoke at hg
        split at hg
        · split at hg
          · exact Except.noConfusion hg
          case _ ud hud =>
            cases hg
            refine ⟨hr, ?_⟩
            intro kv hkv
            rcases mem_dictSet hkv with hkv | hkv
            · subst hkv
              intro x hx hxb
              exact hu (t, ud) (dictGet_mem hud) x
                (mem_setDiscard.mp hx).1 (mem_setDiscard.mp hxb).1
            · exact hu kv hkv
        · split at hg
          · exact Except.noConfusion hg
          case _ pl hpl =>
            cases hg
            refine ⟨?_, hu⟩
            intro kv hkv
            rcases mem_dictSet hkv with hkv | hkv
            · subst hkv
              intro x hx hxb
              exact hr (t, pl) (dictGet_mem hpl) x
                (mem_setDiscard.mp hx).1 (mem_setDiscard.mp hxb).1
            · exact hr kv hkv
  | checkOp u p =>
      rcases hg : check st u p with e | r
      · simp only [applyRbacOp, hg]
        exact ⟨hr, hu⟩
      · simp only [applyRbacOp, hg]
        unfold check at hg
        split at hg
        · exact Except.noConfusion hg
        case _ st1 heq =>
          have h1 : DisjointWB st1 := by
            split at heq
            · cases heq
              exact ⟨hr, hu⟩
            · exact add_user_disjoint heq ⟨hr, hu⟩
          simp only [] at hg
          split at hg
          · cases hg
            exact h1
          · split at hg
            · cases hg
              exact h1
            · cases hg
              exact h1

theorem runRbacOps_disjoint (st : RBACState) (ops : List RbacOp)
    (h : DisjointWB st) : DisjointWB (runRbacOps st ops) := by
  induction ops generalizing st with
  | nil => exact h
  | cons op rest ih =>
      exact ih _ (applyRbacOp_disjoint st op h)

theorem initRBAC_disjoint (d : Option String) : DisjointWB (initRBAC d) := by
  constructor <;> intro kv hkv <;> simp [initRBAC] at hkv

/-- The white/black lists of a grant/revoke target. -/
def getListsOf (st : RBACState) (tt : TargetType) (target : String) :
    Option PermLists :=
  match tt with
  | .user => (dictGet st.users target).map (fun ud => ⟨ud.whitelist, ud.blacklist⟩)
  | .role => dictGet st.roles target

theorem grant_sets {st : RBACState} {tt : TargetType} {target p : String}
    {w c : Bool} {st' : RBACState} (hg : grant st tt target p w c = .ok st') :
    ∃ ls, getListsOf st' tt target = some ls ∧
      (w = true → p ∈ ls.whitelist ∧ p ∉ ls.blacklist) ∧
      (w = false → p ∈ ls.blacklist ∧ p ∉ ls.whitelist) := by
  unfold grant at hg
  split at hg
  · exact Except.noConfusion hg
  case _ st1 heq =>
    split at hg
    · split at hg
      · exact Except.noConfusion hg
      case _ ud hud =>
        cases hg
        refine ⟨?_, ?_, ?_, ?_⟩
        case _ =>
          exact if w then ⟨setAdd ud.whitelist p, setDiscard ud.blacklist p⟩
            else ⟨setDiscard ud.whitelist p, setAdd ud.blacklist p⟩
        · show (dictGet (dictSet st1.users target _) target).map _ = _
          rw [dictGet_dictSet_self, if_pos (mem_keys_of_dictGet hud)]
          cases w with
          | true => simp
          | false => simp
        · intro hw
          subst hw
          simp only [if_pos rfl]
          exact ⟨mem_setAdd.mpr (Or.inl rfl),
            fun hc => (mem_setDiscard.mp hc).2 rfl⟩
        · intro hw
          subst hw
          simp only [Bool.false_eq_true, if_neg]
          exact ⟨mem_setAdd.mpr (Or.inl rfl),
            fun hc => (mem_setDiscard.mp hc).2 rfl⟩
    · split at hg
      · exact Except.noConfusion hg
      case _ pl hpl =>
        cases hg
        refine ⟨?_, ?_, ?_, ?_⟩
        case _ =>
          exact if w then ⟨setAdd pl.whitelist p, setDiscard pl.blacklist p⟩
            else ⟨setDiscard pl.whitelist p, setAdd pl.blacklist p⟩
        · show dictGet (dictSet st1.roles target _) target = _
          rw [dictGet_dictSet_self, if_pos (mem_keys_of_dictGet hpl)]
        · intro hw
          subst hw
          simp only [if_pos rfl]
          exact ⟨mem_setAdd.mpr (Or.inl rfl),
            fun hc => (mem_setDiscard.mp hc).2 rfl⟩
        · intro hw
          subst hw
          simp only [Bool.false_eq_true, if_neg]
          exact ⟨mem_setAdd.mpr (Or.inl rfl),
            fun hc => (mem_setDiscard.mp hc).2 rfl⟩

theorem revoke_clears {st : RBACState} {tt : TargetType} {target p : String}
    {st' : RBACState} (hg : revoke st tt target p = .ok st') :
    ∃ ls, getListsOf st' tt target = some ls ∧
      p ∉ ls.whitelist ∧ p ∉ ls.blacklist := by
  unfold revoke at hg
  split at hg
  · split at hg
    · exact Except.noConfusion hg
    case _ ud hud =>
      cases hg
      refine ⟨⟨setDiscard ud.whitelist p, setDiscard ud.blacklist p⟩, ?_, ?_, ?_⟩
      · show (dictGet (dictSet st.users target _) target).map _ = _
        rw [dictGet_dictSet_self, if_pos (mem_keys_of_dictGet hud)]
        simp
      · exact fun hc => (mem_setDiscard.mp hc).2 rfl
      · exact fun hc => (mem_setDiscard.mp hc).2 rfl
  · split at hg
    · exact Except.noConfusion hg
    case _ pl hpl =>
      cases hg
      refine ⟨⟨setDiscard pl.whitelist p, setDiscard pl.blacklist p⟩, ?_, ?_, ?_⟩
      · show dictGet (dictSet st.roles target _) target = _
        rw [dictGet_dictSet_self, if_pos (mem_keys_of_dictGet hpl)]
      · exact fun hc => (mem_setDiscard.mp hc).2 rfl
      · exact fun hc => (mem_setDiscard.mp hc).2 rfl

theorem add_role_fresh {st : RBACState} {r : String} {st' : RBACState}
    (hg : add_role st r false = .ok st') :
    dictGet st'.roles r = some ⟨[], []⟩ := by
  unfold add_role at hg
  split at hg
  · exact Except.noConfusion hg
  case _ hnew =>
    cases hg
    show dictGet (st.roles ++ [(r, ⟨[], []⟩)]) r = _
    rw [dictGet_append_single,
      (dictGet_eq_none_iff st.roles r).mpr hnew]
    simp

theorem add_user_fresh {st : RBACState} {u : String} {st' : RBACState}
    (hg : add_user st u false = .ok st') :
    ∃ ud, dictGet st'.users u = some ud ∧
      ud.whitelist = [] ∧ ud.blacklist = [] := by
  have husers : ∀ roles0 : List String, u ∉ dictKeys st.users →
      ∃ ud, dictGet (st.users ++ [(u, UserData.mk [] [] roles0)]) u = some ud ∧
        ud.whitelist = [] ∧ ud.blacklist = [] := by
    intro roles0 hnew
    refine ⟨⟨[], [], roles0⟩, ?_, rfl, rfl⟩
    rw [dictGet_append_single, (dictGet_eq_none_iff st.users u).mpr hnew]
    simp
  unfold add_user at hg
  split at hg
  · exact Except.noConfusion hg
  case _ hnew =>
    split at hg
    · split at hg
      · cases hg
        exact husers _ hnew
      · cases hg
        exact husers _ hnew
    · cases hg
      exact husers _ hnew

/-- A black-list pattern accumulated for a user: from the user's direct
blacklist, or from the blacklist of any existing role the user holds
transitively through inheritance. -/
def AccBlack (st : RBACState) (ud : UserData) (b : String) : Prop :=
  b ∈ ud.blacklist ∨
    ∃ r pl, (∃ r0 ∈ ud.roles, ReachRT st.roleInheritance r0 r) ∧
      dictGet st.roles r = some pl ∧ b ∈ pl.blacklist

/-- A white-list pattern accumulated for a user. -/
def AccWhite (st : RBACState) (ud : UserData) (w : String) : Prop :=
  w ∈ ud.whitelist ∨
    ∃ r pl, (∃ r0 ∈ ud.roles, ReachRT st.roleInheritance r0 r) ∧
      dictGet st.roles r = some pl ∧ w ∈ pl.whitelist

theorem mem_rolePerms_flatMap (st : RBACState) (rs : List String)
    (sel : PermLists → List String) (b : String) :
    (b ∈ rs.flatMap (fun r =>
        match dictGet st.roles r with
        | some pl => sel pl
        | none => [])) ↔
      ∃ r ∈ rs, ∃ pl, dictGet st.roles r = some pl ∧ b ∈ sel pl := by
  rw [List.mem_flatMap]
  constructor
  · rintro ⟨r, hr, hb⟩
    rcases hg : dictGet st.roles r with _ | pl
    · rw [hg] at hb
      simp at hb
    · rw [hg] at hb
      exact ⟨r, hr, pl, hg, hb⟩
  · rintro ⟨r, hr, pl, hg, hb⟩
    refine ⟨r, hr, ?_⟩
    rw [hg]
    exact hb

theorem effective_black_mem (st : RBACState) (user : String) (ud : UserData)
    (hu : dictGet st.users user = some ud) (b : String) :
    b ∈ (effectivePermissions st user).blacklist ↔ AccBlack st ud b := by
  unfold effectivePermissions
  rw [hu]
  dsimp only
  rcases hc : collectRoles st.roleInheritance ud.roles with _ | rs
  · exact absurd hc (collectRoles_some _ _)
  · dsimp only
    simp only [List.mem_append]
    rw [mem_rolePerms_flatMap st rs PermLists.blacklist b]
    unfold AccBlack
    constructor
    · rintro (hb | ⟨r, hr, pl, hg, hb⟩)
      · exact Or.inl hb
      · exact Or.inr ⟨r, pl, (collectRoles_mem _ _ hc r).mp hr, hg, hb⟩
    · rintro (hb | ⟨r, pl, hhold, hg, hb⟩)
      · exact Or.inl hb
      · exact Or.inr ⟨r, (collectRoles_mem _ _ hc r).mpr hhold, pl, hg, hb⟩

theorem effective_white_mem (st : RBACState) (user : String) (ud : UserData)
    (hu : dictGet st.users user = some ud) (w : String) :
    w ∈ (effectivePermissions st user).whitelist ↔ AccWhite st ud w := by
  unfold effectivePermissions
  rw [hu]
  dsimp only
  rcases hc : collectRoles st.roleInheritance ud.roles with _ | rs
  · exact absurd hc (collectRoles_some _ _)
  · dsimp only
    simp only [List.mem_append]
    rw [mem_rolePerms_flatMap st rs PermLists.whitelist w]
    unfold AccWhite
    constructor
    · rintro (hb | ⟨r, hr, pl, hg, hb⟩)
      · exact Or.inl hb
      · exact Or.inr ⟨r, pl, (collectRoles_mem _ _ hc r).mp hr, hg, hb⟩
    · rintro (hb | ⟨r, pl, hhold, hg, hb⟩)
      · exact Or.inl hb
      · exact Or.inr ⟨r, (collectRoles_mem _ _ hc r).mpr hhold, pl, hg, hb⟩

theorem check_exists_user (st : RBACState) (u p : String) (ud : UserData)
    (hu : dictGet st.users u = some ud) :
    check st u p =
      (if (effectivePermissions st u).blacklist.any
            (fun b => permMatches b p) then Except.ok (st, false)
       else if (effectivePermissions st u).whitelist.any
            (fun w => permMatches w p) then Except.ok (st, true)
       else Except.ok (st, false)) := by
  unfold check
  rw [if_pos (mem_keys_of_dictGet hu)]

/-! ## Message segments
(`ncatbot/core/event/message_event/types/base.py`, `primitives.py`,
`media.py`, `misc.py`, `nodes.py`)

`MessageSegment` is a pydantic model with `extra="allow"`:
* `from_dict` takes `\x7b"type": T, "data": D\x7d`, builds the payload
  `\x7b**D, "type": T\x7d` and validates it against the model class of `T`
  (the type-to-class dispatch table is not under `src/`; modelled from the
  spec: look up T in a dispatch table, instantiate the variant populating
  known fields and retaining unknown fields verbatim);
* `to_dict` is `model_dump(exclude=\x7b"type"\x7d, exclude_none=True)` under
  the `"data"` key - `exclude_none` drops every `None`-valued field, extras
  included.

The embedding covers every segment class exported by `types/__init__.py`
(the star-imports of `primitives.py`, `media.py`, `nodes.py`, `misc.py`;
`forward.py` is NOT star-imported, so the live `Node`/`Forward` are the
ones of `nodes.py`): `text`, `face`, `at`, `reply`, `image`, `record`,
`video`, `file`, `share`, `location`, `music`, `json`, `markdown`, `node`,
`forward`.  Each class contributes its declared pydantic fields in
model-field order (base-class fields first; a field redefined in a subclass
keeps its original position); the field named `type` is the tag field: it
is injected by `from_dict` and excluded from the `to_dict` dump.

Pydantic validation per declared field, restricted to the field-value
universe `JVal` (strings, integers, `None`; floats appear only through
their integer-valued subset, nested lists/dicts such as `Node.content`
message arrays or `Forward.content` node lists are outside the universe,
and lax numeric-string coercion is elided):
* required `str`: accepts a string (pydantic does not coerce ints to str);
* `Optional[str] = None` / `Optional[int] = None`: missing or `None`
  stores `None`; otherwise a value of the right shape;
* `int = 0` (`Image.sub_type`): missing stores the default, `None` is
  rejected;
* `float` (`Location.lat`/`lon`): an integer number;
* `At.qq`: the `validate_qq` before-validator - `str(v).strip()` must be
  `"all"` or pass `isdigit`, the stripped string is stored;
* `Node.user_id`: the `ensure_str` before-validator - `str(v)` unless the
  value is `None` (which then fails the `str` check);
* `Literal[...]` (`Music.platform`): exactly one of the listed strings;
* `Optional[Literal[...]] = None`: one of the listed strings, or `None`.

Two classes override behaviour:
* `Image` declares `type` TWICE in its class body
  (`type: Literal["image"] = "image"`, then after `sub_type`,
  `type: Optional[Literal["flash"]] = None`).  Python keeps the LAST
  annotation for a repeated key, so the pydantic field is
  `Optional[Literal["flash"]] = None` - and `from_dict`, which injects
  `"type": "image"`, always fails validation for an `image` wire dict.
* `Music.from_dict` first renames the inner `data["type"]` to
  `data["platform"]` (a `KeyError` - an error here - when the inner dict
  has no `"type"`; assignment to an existing key keeps its position, a new
  key is appended) and deletes the inner `"type"`; `Music.to_dict` renames
  the dumped `platform` back to an inner `"type"` appended at the end.
  `platform` is a required field of a validated `Music`, so the dump always
  contains it; the embedding returns the dump unrenamed in the (for
  model-produced segments unreachable) missing-`platform` case where
  Python would raise `KeyError`. -/

/-- A JSON-ish field value (`None` is `JVal.null`). -/
inductive JVal where
  | str (v : String)
  | int (v : Int)
  | null
  deriving DecidableEq, Repr

/-- A decoded segment: its type tag plus its fields in pydantic model order
(declared fields in schema order first, then extras in input order);
`"type"` is never among the fields. -/
structure Seg where
  type : String
  fields : List (String × JVal)
  deriving DecidableEq, Repr

/-- The wire form: a dict with `"type"` and `"data"` keys. -/
structure WireDict where
  type : String
  data : List (String × JVal)
  deriving DecidableEq, Repr

/-- Python `str(v)` on a field value. -/
def pyStr : JVal → String
  | .str s => s
  | .int n => toString n
  | .null => "None"

/-- Python `str.strip()`: drop whitespace at both ends. -/
def pyStrip (s : String) : String :=
  ⟨((s.data.dropWhile Char.isWhitespace).reverse.dropWhile
      Char.isWhitespace).reverse⟩

/-- `At.validate_qq`: `str(v).strip()` must be `"all"` or pass `isdigit`
(non-empty, all digits); the stored value is the stripped string. -/
def validateQQ (v : JVal) : Except String JVal :=
  let sv := pyStrip (pyStr v)
  if sv = "all" then .ok (.str sv)
  else if sv.length > 0 && sv.data.all Char.isDigit then .ok (.str sv)
  else .error "qq must be a digit string or all"

/-- The validation behaviour of one declared pydantic field (see the
section comment for the Python reading of each kind). -/
inductive FieldKind where
  | reqStr
  | optStr
  | optNum
  | numDefault (n : Int)
  | reqNum
  | qq
  | beforeStr
  | lit (allowed : List String)
  | optLit (allowed : List String)
  deriving DecidableEq, Repr

/-- Validate one declared field: the input is the provided value (`none` if
the key is missing), the output the stored value. -/
def validateKind : FieldKind → Option JVal → Except String JVal
  | .reqStr, some (.str s) => .ok (.str s)
  | .reqStr, _ => .error "a string is required"
  | .optStr, none => .ok .null
  | .optStr, some .null => .ok .null
  | .optStr, some (.str s) => .ok (.str s)
  | .optStr, some (.int _) => .error "a string or None is required"
  | .optNum, none => .ok .null
  | .optNum, some .null => .ok .null
  | .optNum, some (.int n) => .ok (.int n)
  | .optNum, some (.str _) => .error "a number or None is required"
  | .numDefault n, none => .ok (.int n)
  | .numDefault _, some (.int m) => .ok (.int m)
  | .numDefault _, some _ => .error "a number is required"
  | .reqNum, some (.int n) => .ok (.int n)
  | .reqNum, _ => .error "a number is required"
  | .qq, some v => validateQQ v
  | .qq, none => .error "qq is required"
  | .beforeStr, some (.str s) => .ok (.str s)
  | .beforeStr, some (.int n) => .ok (.str (toString n))
  | .beforeStr, _ => .error "a string is required"
  | .lit allowed, some (.str s) =>
      if s ∈ allowed then .ok (.str s) else .error "not a permitted literal"
  | .lit _, _ => .error "not a permitted literal"
  | .optLit _, none => .ok .null
  | .optLit _, some .null => .ok .null
  | .optLit allowed, some (.str s) =>
      if s ∈ allowed then .ok (.str s) else .error "not a permitted literal"
  | .optLit _, some (.int _) => .error "not a permitted literal"

/-- The fields of `DownloadableMessageSegment` (`media.py`), inherited by
`image`, `record`, `video` and `file`. -/
def dlFields : List (String × FieldKind) :=
  [("file", .optStr), ("url", .optStr), ("file_id", .optStr),
   ("file_size", .optNum), ("file_name", .optStr), ("base64", .optStr)]

/-- The declared-field schema of each known segment type, in pydantic
model-field order, excluding the tag field `type` (see `typeFieldKind`). -/
def segSchema : String → Option (List (String × FieldKind))
  | "text" => some [("text", .reqStr)]
  | "face" => some [("id", .reqStr)]
  | "at" => some [("qq", .qq)]
  | "reply" => some [("id", .reqStr)]
  | "image" => some (dlFields ++ [("sub_type", .numDefault 0)])
  | "record" => some (dlFields ++ [("magic", .optNum)])
  | "video" => some dlFields
  | "file" => some dlFields
  | "share" => some [("url", .reqStr), ("title", .reqStr),
      ("content", .optStr), ("image", .optStr)]
  | "location" => some [("lat", .reqNum), ("lon", .reqNum),
      ("title", .optStr), ("content", .optStr)]
  | "music" => some [("platform", .lit ["qq", "163", "custom"]),
      ("id", .optStr), ("url", .optStr), ("audio", .optStr),
      ("title", .optStr)]
  | "json" => some [("data", .reqStr)]
  | "markdown" => some [("content", .reqStr)]
  | "node" => some [("user_id", .beforeStr), ("nickname", .reqStr),
      ("content", .reqStr)]
  | "forward" => some [("id", .optStr), ("content", .optLit [])]
  | _ => none

/-- Validation of the injected tag against the class's own `type` field:
every class declares `type: Literal[tag] = tag` - except `Image`, whose
re-declaration leaves `type: Optional[Literal["flash"]] = None` (see the
section comment), so the injected `"image"` never validates. -/
def typeFieldKind : String → FieldKind
  | "image" => .optLit ["flash"]
  | t => .lit [t]

def schemaKeys (schema : List (String × FieldKind)) : List String :=
  schema.map Prod.fst

/-- The payload rewrite of `Music.from_dict`:
`data["data"]["platform"] = data["data"]["type"]` (a `KeyError` when the
inner `"type"` is missing) followed by `del data["data"]["type"]`. -/
def musicRename (d : List (String × JVal)) :
    Except String (List (String × JVal)) :=
  match dictGet d "type" with
  | none => .error "KeyError: type"
  | some tv =>
      match dictGet d "platform" with
      | some _ => .ok (dictRemove (dictSet d "platform" tv) "type")
      | none => .ok (dictRemove (d ++ [("platform", tv)]) "type")

/-- Validate the declared fields of a schema against a payload, producing
the stored values in schema order. -/
def decodeFields (schema : List (String × FieldKind))
    (payload : List (String × JVal)) :
    Except String (List (String × JVal)) :=
  match schema with
  | [] => .ok []
  | (n, k) :: rest =>
      match validateKind k (dictGet payload n) with
      | .error e => .error e
      | .ok v =>
          match decodeFields rest payload with
          | .error e => .error e
          | .ok vs => .ok ((n, v) :: vs)

/-- `MessageSegment.from_dict` through the dispatch table: resolve the
model class from the tag (`Music` first rewrites the payload), validate
the injected tag against the class's `type` field and every declared
field, and keep every non-declared input field other than `"type"`
verbatim as a pydantic extra, in input order. -/
def from_dict (w : WireDict) : Except String Seg :=
  match segSchema w.type with
  | none => .error "unknown segment type"
  | some schema =>
      match (if w.type = "music" then musicRename w.data else .ok w.data)
        with
      | .error e => .error e
      | .ok payload =>
          match validateKind (typeFieldKind w.type) (some (.str w.type))
            with
          | .error e => .error e
          | .ok _ =>
              match decodeFields schema payload with
              | .error e => .error e
              | .ok decl =>
                  .ok ⟨w.type, decl ++ payload.filter (fun kv =>
                    decide (kv.1 ∉ schemaKeys schema ∧ kv.1 ≠ "type"))⟩

/-- `MessageSegment.to_dict`: `model_dump` without the tag field and with
`exclude_none=True`; `Music.to_dict` then renames the dumped `platform` to
an inner `"type"` appended at the end. -/
def to_dict (s : Seg) : WireDict :=
  if s.type = "music" then
    match dictGet (s.fields.filter (fun kv => kv.2 ≠ JVal.null))
        "platform" with
    | some pv =>
        ⟨s.type, dictRemove (s.fields.filter (fun kv => kv.2 ≠ JVal.null))
          "platform" ++ [("type", pv)]⟩
    | none => ⟨s.type, s.fields.filter (fun kv => kv.2 ≠ JVal.null)⟩
  else ⟨s.type, s.fields.filter (fun kv => kv.2 ≠ JVal.null)⟩

/-- A stored value is a fixpoint of its field's validation: re-validating
it yields it back, and a stored `None` is what validation of a missing key
yields (which is how `exclude_none` and the default interact). -/
def fieldFix (k : FieldKind) (v : JVal) : Bool :=
  if v = JVal.null then
    match validateKind k none with
    | .ok w => w = JVal.null
    | .error _ => false
  else
    match validateKind k (some v) with
    | .ok w => w = v
    | .error _ => false

/-- The declared part of a segment matches its schema pointwise. -/
def declMatches : List (String × FieldKind) → List (String × JVal) → Bool
  | [], [] => true
  | (_, _) :: _, [] => false
  | [], (_, _) :: _ => false
  | (n, k) :: rest, (n2, v) :: vs =>
      (n2 == n) && fieldFix k v && declMatches rest vs

/-- `s` is a segment as validation produces it: a known type whose tag
validates against the class's `type` field, declared fields in schema
order holding validation fixpoints, then extras whose keys are neither
declared nor `"type"`. -/
def SegParts (s : Seg) (schema : List (String × FieldKind))
    (decl extras : List (String × JVal)) : Prop :=
  segSchema s.type = some schema ∧
  s.fields = decl ++ extras ∧
  declMatches schema decl = true ∧
  (schemaKeys schema).Nodup ∧
  "type" ∉ schemaKeys schema ∧
  validateKind (typeFieldKind s.type) (some (.str s.type)) =
    .ok (.str s.type) ∧
  ∀ kv ∈ extras, kv.1 ∉ schemaKeys schema ∧ kv.1 ≠ "type"

theorem dictGet_append {α β : Type} [DecidableEq α]
    (l1 l2 : List (α × β)) (x : α) :
    dictGet (l1 ++ l2) x =
      match dictGet l1 x with
      | some w => some w
      | none => dictGet l2 x := by
  induction l1 with
  | nil => simp [dictGet]
  | cons kv rest ih =>
      by_cases h : kv.1 = x
      · simp [dictGet, h]
      · simp [dictGet, h, ih]

theorem dictGet_cons_ne {α β : Type} [DecidableEq α] (kv : α × β)
    (l : List (α × β)) (x : α) (h : ¬kv.1 = x) :
    dictGet (kv :: l) x = dictGet l x := by
  show (if kv.1 = x then some kv.2 else dictGet l x) = dictGet l x
  rw [if_neg h]

theorem fieldFix_null {k : FieldKind}
    (h : fieldFix k JVal.null = true) :
    validateKind k none = .ok JVal.null := by
  unfold fieldFix at h
  rw [if_pos rfl] at h
  rcases hv : validateKind k none with e | w
  · rw [hv] at h
    exact absurd h (by simp)
  · rw [hv] at h
    simp only [decide_eq_true_eq] at h
    rw [h]

theorem fieldFix_some {k : FieldKind} {v : JVal} (hv : v ≠ JVal.null)
    (h : fieldFix k v = true) :
    validateKind k (some v) = .ok v := by
  unfold fieldFix at h
  rw [if_neg hv] at h
  rcases hval : validateKind k (some v) with e | w
  · rw [hval] at h
    exact absurd h (by simp)
  · rw [hval] at h
    simp only [decide_eq_true_eq] at h
    rw [h]

theorem fieldFix_lit {allowed : List String} {v : JVal}
    (h : fieldFix (.lit allowed) v = true) : v ≠ JVal.null := by
  intro hv
  subst hv
  have := fieldFix_null h
  simp [validateKind] at this

theorem declMatches_cons {n : String} {k : FieldKind}
    {rest : List (String × FieldKind)} {decl : List (String × JVal)}
    (h : declMatches ((n, k) :: rest) decl = true) :
    ∃ v vs, decl = (n, v) :: vs ∧ fieldFix k v = true ∧
      declMatches rest vs = true := by
  cases decl with
  | nil => simp [declMatches] at h
  | cons nv vs =>
      obtain ⟨n2, v⟩ := nv
      simp only [declMatches, Bool.and_eq_true, beq_iff_eq] at h
      obtain ⟨⟨hn, hf⟩, hr⟩ := h
      exact ⟨v, vs, by rw [hn], hf, hr⟩

theorem declMatches_keys
    (schema : List (String × FieldKind)) (decl : List (String × JVal))
    (h : declMatches schema decl = true) :
    decl.map Prod.fst = schemaKeys schema := by
  induction schema generalizing decl with
  | nil =>
      cases decl with
      | nil => rfl
      | cons nv vs => simp [declMatches] at h
  | cons nk rest ih =>
      obtain ⟨n, k⟩ := nk
      obtain ⟨v, vs, hd, _, hr⟩ := declMatches_cons h
      subst hd
      simp only [List.map_cons, schemaKeys]
      rw [show vs.map Prod.fst = schemaKeys rest from ih vs hr]
      rfl

theorem decodeFields_congr (schema : List (String × FieldKind))
    (p1 p2 : List (String × JVal))
    (h : ∀ n ∈ schemaKeys schema, dictGet p1 n = dictGet p2 n) :
    decodeFields schema p1 = decodeFields schema p2 := by
  induction schema with
  | nil => rfl
  | cons nk rest ih =>
      obtain ⟨n, k⟩ := nk
      unfold decodeFields
      rw [h n (List.mem_cons_self _ _),
        ih (fun m hm => h m (List.mem_cons_of_mem _ hm))]

theorem decodeFields_ok (schema : List (String × FieldKind))
    (decl extras : List (String × JVal))
    (hdm : declMatches schema decl = true)
    (hnd : (schemaKeys schema).Nodup)
    (hex : ∀ kv ∈ extras, kv.1 ∉ schemaKeys schema) :
    decodeFields schema
      (decl.filter (fun kv => kv.2 ≠ JVal.null) ++ extras) = .ok decl := by
  induction schema generalizing decl with
  | nil =>
      cases decl with
      | nil => rfl
      | cons nv vs => simp [declMatches] at hdm
  | cons nk rest ih =>
      obtain ⟨n, k⟩ := nk
      obtain ⟨v, vs, hd, hf, hr⟩ := declMatches_cons hdm
      subst hd
      have hkeys := declMatches_keys rest vs hr
      have hn1 : n ∉ schemaKeys rest := by
        have := hnd
        simp only [schemaKeys, List.map_cons, List.nodup_cons] at this
        exact this.1
      have hnd2 : (schemaKeys rest).Nodup := by
        have := hnd
        simp only [schemaKeys, List.map_cons, List.nodup_cons] at this
        exact this.2
      have hex2 : ∀ kv ∈ extras, kv.1 ∉ schemaKeys rest := by
        intro kv hkv hmem
        exact (hex kv hkv) (List.mem_cons_of_mem _ hmem)
      by_cases hv : v = JVal.null
      · subst hv
        have hdrop : ((n, JVal.null) :: vs).filter
            (fun kv => kv.2 ≠ JVal.null) =
            vs.filter (fun kv => kv.2 ≠ JVal.null) :=
          List.filter_cons_of_neg (by simp)
        rw [hdrop]
        have hget : dictGet (vs.filter (fun kv => kv.2 ≠ JVal.null) ++
            extras) n = none := by
          rw [dictGet_eq_none_iff]
          intro hmem
          simp only [dictKeys, List.map_append, List.mem_append] at hmem
          rcases hmem with hm1 | hm2
          · rcases List.mem_map.mp hm1 with ⟨kv, hkv, hfst⟩
            have : kv ∈ vs := List.mem_of_mem_filter hkv
            have : n ∈ vs.map Prod.fst := List.mem_map.mpr ⟨kv, this, hfst⟩
            rw [hkeys] at this
            exact hn1 this
          · rcases List.mem_map.mp hm2 with ⟨kv, hkv, hfst⟩
            exact (hex kv hkv) (hfst ▸ List.mem_cons_self _ _)
        unfold decodeFields
        rw [hget, fieldFix_null hf]
        dsimp only
        rw [ih vs hr hnd2 hex2]
      · have hkeep : ((n, v) :: vs).filter (fun kv => kv.2 ≠ JVal.null) =
            (n, v) :: vs.filter (fun kv => kv.2 ≠ JVal.null) :=
          List.filter_cons_of_pos (by simpa using hv)
        rw [hkeep]
        have hcongr : decodeFields rest ((n, v) :: (vs.filter
            (fun kv => kv.2 ≠ JVal.null) ++ extras)) =
            decodeFields rest (vs.filter
              (fun kv => kv.2 ≠ JVal.null) ++ extras) := by
          apply decodeFields_congr
          intro m hm
          have hmn : ¬((n, v).1 = m) := by
            simp only []
            intro he
            subst he
            exact hn1 hm
          exact dictGet_cons_ne _ _ _ hmn
        rw [List.cons_append]
        unfold decodeFields
        rw [show dictGet ((n, v) :: (vs.filter
            (fun kv => kv.2 ≠ JVal.null) ++ extras)) n = some v by
          simp [dictGet]]
        rw [fieldFix_some hv hf]
        dsimp only
        rw [hcongr, ih vs hr hnd2 hex2]

theorem payload_extras_filter (schema : List (String × FieldKind))
    (decl extras : List (String × JVal))
    (hkeys : decl.map Prod.fst = schemaKeys schema)
    (hex : ∀ kv ∈ extras, kv.1 ∉ schemaKeys schema ∧ kv.1 ≠ "type") :
    (decl.filter (fun kv => kv.2 ≠ JVal.null) ++ extras).filter
      (fun kv => decide (kv.1 ∉ schemaKeys schema ∧ kv.1 ≠ "type")) =
      extras := by
  rw [List.filter_append]
  rw [List.filter_eq_nil_iff.mpr ?_, List.filter_eq_self.mpr ?_]
  · rfl
  · intro kv hkv
    simpa using hex kv hkv
  · intro kv hkv
    have hk2 : kv.1 ∈ schemaKeys schema := by
      rw [← hkeys]
      exact List.mem_map.mpr ⟨kv, List.mem_of_mem_filter hkv, rfl⟩
    simp [hk2]

theorem musicRename_mem {d res : List (String × JVal)} {k : String}
    {v : JVal} (h : musicRename d = .ok res) (hk : k ≠ "type")
    (hp : k ≠ "platform") (hmem : (k, v) ∈ d) : (k, v) ∈ res := by
  unfold musicRename at h
  rcases hg : dictGet d "type" with _ | tv
  · rw [hg] at h
    exact Except.noConfusion h
  · rw [hg] at h
    rcases hpg : dictGet d "platform" with _ | pv
    · rw [hpg] at h
      dsimp only at h
      cases h
      refine List.mem_filter.mpr ⟨List.mem_append_left _ hmem, by simpa using hk⟩
    · rw [hpg] at h
      dsimp only at h
      cases h
      refine List.mem_filter.mpr ⟨?_, by simpa using hk⟩
      have : ((fun kv => if kv.1 = "platform" then ("platform", tv)
          else kv) ((k, v)) : String × JVal) ∈ dictSet d "platform" tv :=
        List.mem_map_of_mem _ hmem
      simpa [if_neg hp] using this

/-- The music schema as head and tail, for destructuring. -/
theorem segSchema_music :
    segSchema "music" =
      some (("platform", FieldKind.lit ["qq", "163", "custom"]) ::
        [("id", FieldKind.optStr), ("url", FieldKind.optStr),
         ("audio", FieldKind.optStr), ("title", FieldKind.optStr)]) := rfl

theorem from_dict_retains_extras (w : WireDict) (s : Seg)
    (schema : List (String × FieldKind)) (k : String) (v : JVal)
    (hs : from_dict w = .ok s)
    (hschema : segSchema w.type = some schema)
    (hk1 : k ∉ schemaKeys schema) (hk2 : k ≠ "type")
    (hmem : (k, v) ∈ w.data) :
    (k, v) ∈ s.fields ∧
      (v ≠ JVal.null → (k, v) ∈ (to_dict s).data) := by
  have hkp : w.type = "music" → k ≠ "platform" := by
    intro hm he
    apply hk1
    rw [hm] at hschema
    rw [segSchema_music] at hschema
    rw [← Option.some.inj hschema]
    rw [he]
    decide
  unfold from_dict at hs
  rw [hschema] at hs
  dsimp only at hs
  rcases hP : (if w.type = "music" then musicRename w.data else .ok w.data)
    with e | payload
  · rw [hP] at hs
    exact Except.noConfusion hs
  · rw [hP] at hs
    dsimp only at hs
    have hpm : (k, v) ∈ payload := by
      by_cases hm : w.type = "music"
      · rw [if_pos hm] at hP
        exact musicRename_mem hP hk2 (hkp hm) hmem
      · rw [if_neg hm] at hP
        cases hP
        exact hmem
    rcases hT : validateKind (typeFieldKind w.type) (some (.str w.type))
      with e | tv
    · rw [hT] at hs
      exact Except.noConfusion hs
    · rw [hT] at hs
      dsimp only at hs
      rcases hD : decodeFields schema payload with e | decl
      · rw [hD] at hs
        exact Except.noConfusion hs
      · rw [hD] at hs
        dsimp only at hs
        cases hs
        have h1 : (k, v) ∈ decl ++ payload.filter (fun kv =>
            decide (kv.1 ∉ schemaKeys schema ∧ kv.1 ≠ "type")) :=
          List.mem_append_right _
            (List.mem_filter.mpr ⟨hpm, by simp [hk1, hk2]⟩)
        refine ⟨h1, fun hv => ?_⟩
        have h2 : (k, v) ∈ (decl ++ payload.filter (fun kv =>
            decide (kv.1 ∉ schemaKeys schema ∧ kv.1 ≠ "type"))).filter
            (fun kv => kv.2 ≠ JVal.null) :=
          List.mem_filter.mpr ⟨h1, by simpa using hv⟩
        unfold to_dict
        dsimp only
        by_cases hm : w.type = "music"
        · rw [if_pos hm]
          rcases hgp : dictGet ((decl ++ payload.filter (fun kv =>
              decide (kv.1 ∉ schemaKeys schema ∧ kv.1 ≠ "type"))).filter
              (fun kv => kv.2 ≠ JVal.null)) "platform" with _ | pv
          · dsimp only
            exact h2
          · dsimp only
            apply List.mem_append_left
            exact List.mem_filter.mpr ⟨h2, by simpa using hkp hm⟩
        · rw [if_neg hm]
          dsimp only
          exact h2

theorem from_to_dict_roundtrip (s : Seg)
    (schema : List (String × FieldKind))
    (decl extras : List (String × JVal))
    (hp : SegParts s schema decl extras)
    (hnn : ∀ kv ∈ extras, kv.2 ≠ JVal.null) :
    from_dict (to_dict s) = .ok s := by
  obtain ⟨hschema, hfields, hdm, hnd, htype, htag, hex⟩ := hp
  have hschema0 := hschema
  have hkeys := declMatches_keys schema decl hdm
  have hdump : s.fields.filter (fun kv => kv.2 ≠ JVal.null) =
      decl.filter (fun kv => kv.2 ≠ JVal.null) ++ extras := by
    rw [hfields, List.filter_append,
      show extras.filter (fun kv => kv.2 ≠ JVal.null) = extras from
        List.filter_eq_self.mpr (fun kv hkv => by simpa using hnn kv hkv)]
  by_cases hm : s.type = "music"
  case neg =>
    have ht : to_dict s =
        ⟨s.type, decl.filter (fun kv => kv.2 ≠ JVal.null) ++ extras⟩ := by
      unfold to_dict
      rw [if_neg hm, hdump]
    rw [ht]
    unfold from_dict
    dsimp only
    rw [hschema0]
    dsimp only
    rw [if_neg hm]
    dsimp only
    rw [htag]
    dsimp only
    rw [decodeFields_ok schema decl extras hdm hnd
      (fun kv hkv => (hex kv hkv).1)]
    dsimp only
    rw [payload_extras_filter schema decl extras hkeys hex]
    rw [← hfields]
  case pos =>
    rw [hm] at hschema
    rw [segSchema_music] at hschema
    obtain rfl : schema =
        ("platform", FieldKind.lit ["qq", "163", "custom"]) ::
          [("id", FieldKind.optStr), ("url", FieldKind.optStr),
           ("audio", FieldKind.optStr), ("title", FieldKind.optStr)] :=
      (Option.some.inj hschema).symm
    obtain ⟨pv, vs, hdecl, hpf, hdm2⟩ := declMatches_cons hdm
    subst hdecl
    have hpv : pv ≠ JVal.null := fieldFix_lit hpf
    have hkeys2 := declMatches_keys _ vs hdm2
    have hex2 : ∀ kv ∈ extras, kv.1 ∉
        schemaKeys [("id", FieldKind.optStr), ("url", FieldKind.optStr),
          ("audio", FieldKind.optStr), ("title", FieldKind.optStr)] :=
      fun kv hkv hmem => (hex kv hkv).1 (List.mem_cons_of_mem _ hmem)
    have hdump2 : s.fields.filter (fun kv => kv.2 ≠ JVal.null) =
        ("platform", pv) ::
          (vs.filter (fun kv => kv.2 ≠ JVal.null) ++ extras) := by
      rw [hdump, List.filter_cons_of_pos (by simpa using hpv),
        List.cons_append]
    have hnoplat : ∀ kv : String × JVal,
        kv ∈ vs.filter (fun kv => kv.2 ≠ JVal.null) ++ extras →
        ¬kv.1 = "platform" := by
      intro kv hkv he
      rcases List.mem_append.mp hkv with h1 | h2
      · have hv2 : kv ∈ vs := List.mem_of_mem_filter h1
        have hkm : kv.1 ∈ vs.map Prod.fst :=
          List.mem_map.mpr ⟨kv, hv2, rfl⟩
        rw [hkeys2, he] at hkm
        exact absurd hkm (by decide)
      · have := (hex kv h2).1
        rw [he] at this
        exact this (by decide)
    have hnotype : ∀ kv : String × JVal,
        kv ∈ vs.filter (fun kv => kv.2 ≠ JVal.null) ++ extras →
        ¬kv.1 = "type" := by
      intro kv hkv he
      rcases List.mem_append.mp hkv with h1 | h2
      · have hv2 : kv ∈ vs := List.mem_of_mem_filter h1
        have hkm : kv.1 ∈ vs.map Prod.fst :=
          List.mem_map.mpr ⟨kv, hv2, rfl⟩
        rw [hkeys2, he] at hkm
        exact absurd hkm (by decide)
      · exact (hex kv h2).2 he
    have hplat : dictGet
        (s.fields.filter (fun kv => kv.2 ≠ JVal.null)) "platform" =
        some pv := by
      rw [hdump2]
      simp [dictGet]
    have hrm : dictRemove
        (s.fields.filter (fun kv => kv.2 ≠ JVal.null)) "platform" =
        vs.filter (fun kv => kv.2 ≠ JVal.null) ++ extras := by
      rw [hdump2]
      unfold dictRemove
      rw [List.filter_cons_of_neg (by simp)]
      exact List.filter_eq_self.mpr
        (fun kv hkv => by simpa using hnoplat kv hkv)
    have ht : to_dict s = ⟨s.type,
        (vs.filter (fun kv => kv.2 ≠ JVal.null) ++ extras) ++
          [("type", pv)]⟩ := by
      unfold to_dict
      rw [if_pos hm, hplat]
      dsimp only
      rw [hrm]
    have hgT : dictGet ((vs.filter (fun kv => kv.2 ≠ JVal.null) ++
        extras) ++ [("type", pv)]) "type" = some pv := by
      rw [dictGet_append]
      rw [show dictGet (vs.filter (fun kv => kv.2 ≠ JVal.null) ++ extras)
          "type" = none by
        rw [dictGet_eq_none_iff]
        intro hmem
        rcases List.mem_map.mp hmem with ⟨kv, hkv, hfst⟩
        exact hnotype kv hkv hfst]
      simp [dictGet]
    have hgPnone : dictGet (vs.filter (fun kv => kv.2 ≠ JVal.null) ++
        extras) "platform" = none := by
      rw [dictGet_eq_none_iff]
      intro hmem
      rcases List.mem_map.mp hmem with ⟨kv, hkv, hfst⟩
      exact hnoplat kv hkv hfst
    have hR : musicRename ((vs.filter (fun kv => kv.2 ≠ JVal.null) ++
        extras) ++ [("type", pv)]) =
        .ok ((vs.filter (fun kv => kv.2 ≠ JVal.null) ++ extras) ++
          [("platform", pv)]) := by
      unfold musicRename
      rw [hgT]
      rw [show dictGet ((vs.filter (fun kv => kv.2 ≠ JVal.null) ++
          extras) ++ [("type", pv)]) "platform" = none by
        rw [dictGet_append, hgPnone]
        simp [dictGet]]
      dsimp only
      unfold dictRemove
      rw [List.append_assoc, List.filter_append]
      rw [List.filter_eq_self.mpr
        (fun kv hkv => by simpa using hnotype kv hkv)]
      rw [show (([("type", pv)] ++ [("platform", pv)]).filter
          (fun kv => kv.1 ≠ "type")) = [("platform", pv)] by simp]
    have hgP2 : dictGet ((vs.filter (fun kv => kv.2 ≠ JVal.null) ++
        extras) ++ [("platform", pv)]) "platform" = some pv := by
      rw [dictGet_append, hgPnone]
      simp [dictGet]
    have hcongr2 : decodeFields
        [("id", FieldKind.optStr), ("url", FieldKind.optStr),
         ("audio", FieldKind.optStr), ("title", FieldKind.optStr)]
        ((vs.filter (fun kv => kv.2 ≠ JVal.null) ++ extras) ++
          [("platform", pv)]) =
        decodeFields
        [("id", FieldKind.optStr), ("url", FieldKind.optStr),
         ("audio", FieldKind.optStr), ("title", FieldKind.optStr)]
        (vs.filter (fun kv => kv.2 ≠ JVal.null) ++ extras) := by
      apply decodeFields_congr
      intro m hmem
      have hmp : ¬m = "platform" := by
        simp only [schemaKeys, List.map_cons, List.map_nil,
          List.mem_cons, List.not_mem_nil, or_false] at hmem
        rcases hmem with rfl | rfl | rfl | rfl <;> decide
      rw [dictGet_append]
      cases hdg : dictGet (vs.filter (fun kv => kv.2 ≠ JVal.null) ++
          extras) m with
      | some u => rfl
      | none =>
          have hmp2 : ¬"platform" = m := fun h => hmp h.symm
          simp [dictGet, hmp2]
    have hdf : decodeFields
        (("platform", FieldKind.lit ["qq", "163", "custom"]) ::
          [("id", FieldKind.optStr), ("url", FieldKind.optStr),
           ("audio", FieldKind.optStr), ("title", FieldKind.optStr)])
        ((vs.filter (fun kv => kv.2 ≠ JVal.null) ++ extras) ++
          [("platform", pv)]) = .ok (("platform", pv) :: vs) := by
      unfold decodeFields
      rw [hgP2, fieldFix_some hpv hpf]
      dsimp only
      rw [hcongr2,
        decodeFields_ok _ vs extras hdm2 (by decide) hex2]
    have hef : (((vs.filter (fun kv => kv.2 ≠ JVal.null) ++ extras) ++
        [("platform", pv)]).filter (fun kv =>
          decide (kv.1 ∉ schemaKeys
            (("platform", FieldKind.lit ["qq", "163", "custom"]) ::
              [("id", FieldKind.optStr), ("url", FieldKind.optStr),
               ("audio", FieldKind.optStr), ("title", FieldKind.optStr)]) ∧
            kv.1 ≠ "type"))) = extras := by
      rw [List.filter_append, List.filter_append]
      have e1 : (vs.filter (fun kv => kv.2 ≠ JVal.null)).filter (fun kv =>
          decide (kv.1 ∉ schemaKeys
            (("platform", FieldKind.lit ["qq", "163", "custom"]) ::
              [("id", FieldKind.optStr), ("url", FieldKind.optStr),
               ("audio", FieldKind.optStr), ("title", FieldKind.optStr)]) ∧
            kv.1 ≠ "type")) = [] := by
        apply List.filter_eq_nil_iff.mpr
        intro kv hkv
        have hkm : kv.1 ∈ vs.map Prod.fst :=
          List.mem_map.mpr ⟨kv, List.mem_of_mem_filter hkv, rfl⟩
        rw [hkeys2] at hkm
        simp only [decide_eq_true_eq, not_and, not_not]
        intro hni
        exact absurd (List.mem_cons_of_mem _ hkm) hni
      have e2 : extras.filter (fun kv =>
          decide (kv.1 ∉ schemaKeys
            (("platform", FieldKind.lit ["qq", "163", "custom"]) ::
              [("id", FieldKind.optStr), ("url", FieldKind.optStr),
               ("audio", FieldKind.optStr), ("title", FieldKind.optStr)]) ∧
            kv.1 ≠ "type")) = extras := by
        apply List.filter_eq_self.mpr
        intro kv hkv
        simpa using hex kv hkv
      have e3 : ([("platform", pv)].filter (fun kv =>
          decide (kv.1 ∉ schemaKeys
            (("platform", FieldKind.lit ["qq", "163", "custom"]) ::
              [("id", FieldKind.optStr), ("url", FieldKind.optStr),
               ("audio", FieldKind.optStr), ("title", FieldKind.optStr)]) ∧
            kv.1 ≠ "type"))) = [] := by
        simp [schemaKeys]
      rw [e1, e2, e3]
      simp
    rw [ht]
    unfold from_dict
    dsimp only
    rw [hschema0]
    dsimp only
    rw [if_pos hm]
    rw [hR]
    dsimp only
    rw [htag]
    dsimp only
    rw [hdf]
    dsimp only
    rw [hef, ← hfields]

/-! ## Plugin unload
(`ncatbot/plugin_system/base_plugin.py`,
`ncatbot/plugin_system/loader/core.py`,
`ncatbot/plugin_system/builtin_plugin/system_manager.py`,
`ncatbot/plugin_system/builtin_plugin/unified_registry/plugin.py`)

The flow for unloading one plugin:
* `SystemManager.unload_plugin` looks the plugin up, calls
  `loader.unload_plugin(name)` and then publishes a `plugin_unload` event;
* `PluginLoader.unload_plugin` calls the plugin's `__unload__`, drops its
  module and deletes it from `self.plugins`;
* `BasePlugin.__unload__` calls `unregister_all_handler`, which iterates a
  snapshot of `self._handlers_id` and calls `unregister_handler` on each:
  remove the id from `_handlers_id`, then `event_bus.unsubscribe(id)`;
* the unified-registry plugin handles the `plugin_unload` event by calling
  `command_registry.root_group.revoke_plugin(name)` and
  `filter_registry.revoke_plugin(name)`.

The event bus itself and the command registry internals are not under
`src/`.  Modelled from the spec (spec-modelled): a subscription is
`(id, owner-plugin)` and `unsubscribe(id)` removes it from the live set; a
command spec carries an owner plugin and `revoke_plugin(name)` removes every
spec owned by `name` (mirroring `FilterEventRegistry.revoke_plugin`, which
is in `src/` and deletes every handler mapped to that plugin name).  The
`_close_`/`on_close` hooks and the config save in `__unload__` do not touch
the subscription table or the command registry and are elided. -/

/-- Global state touched by an unload: the bus's live subscriptions
`(id, owner)`, the loader's plugin table mapping a plugin name to its
`_handlers_id` set, and the command registry's specs `(id, owner)`. -/
structure SysState where
  bus : List (Nat × String)
  plugins : List (String × List Nat)
  commands : List (Nat × String)
  deriving DecidableEq, Repr

/-- `EventBus.unsubscribe` (spec-modelled): drop the subscription with the
given id. -/
def unsubscribe (bus : List (Nat × String)) (hid : Nat) :
    List (Nat × String) :=
  bus.filter (fun s => s.1 ≠ hid)

/-- `BasePlugin.unregister_all_handler`: iterate the snapshot `hs` of
`_handlers_id`; for each id still in the set, remove it from the set and
unsubscribe it from the bus (`unregister_handler`'s membership check,
remove, unsubscribe). -/
def unregAllAux (hs : List Nat) (acc : List (Nat × String) × List Nat) :
    List (Nat × String) × List Nat :=
  match hs with
  | [] => acc
  | hid :: rest =>
      if hid ∈ acc.2 then
        unregAllAux rest
          (unsubscribe acc.1 hid, acc.2.filter (fun y => y ≠ hid))
      else unregAllAux rest acc

/-- `CommandGroup.revoke_plugin` / `FilterEventRegistry.revoke_plugin`:
remove every command spec owned by the plugin. -/
def revoke_plugin (cmds : List (Nat × String)) (name : String) :
    List (Nat × String) :=
  cmds.filter (fun c => c.2 ≠ name)

/-- `SystemManager.unload_plugin`: if the plugin is absent, return False;
otherwise run `loader.unload_plugin` (which runs `__unload__`, i.e.
`unregister_all_handler`, and deletes the loader entry) and publish
`plugin_unload`, whose unified-registry handler revokes the plugin's
command specs. -/
def unload (st : SysState) (name : String) : SysState × Bool :=
  match dictGet st.plugins name with
  | none => (st, false)
  | some hids =>
      let bus2 := (unregAllAux hids (st.bus, hids)).1
      let plugins2 := dictRemove st.plugins name
      let commands2 := revoke_plugin st.commands name
      (⟨bus2, plugins2, commands2⟩, true)

/-- Bus subscriptions owned by a plugin. -/
def ownedSubs (st : SysState) (name : String) : Nat :=
  (st.bus.filter (fun s => s.2 = name)).length

/-- Command specs owned by a plugin. -/
def ownedCmds (st : SysState) (name : String) : Nat :=
  (st.commands.filter (fun c => c.2 = name)).length

theorem unregAllAux_mem (hs : List Nat)
    (acc : List (Nat × String) × List Nat) (s : Nat × String)
    (h : s ∈ (unregAllAux hs acc).1) :
    s ∈ acc.1 ∧ ∀ hid ∈ hs, hid ∈ acc.2 → s.1 ≠ hid := by
  induction hs generalizing acc with
  | nil => exact ⟨h, fun hid hm => absurd hm (List.not_mem_nil hid)⟩
  | cons hid rest ih =>
      unfold unregAllAux at h
      by_cases hm : hid ∈ acc.2
      · rw [if_pos hm] at h
        obtain ⟨h1, h2⟩ := ih _ h
        have hne : s.1 ≠ hid := by
          have := List.of_mem_filter h1
          simpa using this
        refine ⟨List.mem_of_mem_filter h1, ?_⟩
        intro h3 hm3 hm4
        rcases List.mem_cons.mp hm3 with he | hr
        · exact he ▸ hne
        · by_cases hh : h3 = hid
          · exact hh ▸ hne
          · exact h2 h3 hr (List.mem_filter.mpr ⟨hm4, by simpa using hh⟩)
      · rw [if_neg hm] at h
        obtain ⟨h1, h2⟩ := ih _ h
        refine ⟨h1, ?_⟩
        intro h3 hm3 hm4
        rcases List.mem_cons.mp hm3 with he | hr
        · exact absurd (he ▸ hm4) hm
        · exact h2 h3 hr hm4

/-! ## Plugin batch loading (`ncatbot/plugin_system/loader/core.py`)

`load_all_plugins_by_class(plugin_classes)`:
1. builds the resolver's constraint table from the batch declarations and a
   topological load order (`_DependencyResolver` is not under `src/`;
   modelled from the spec: a directed dependency graph keyed by plugin name
   with the semver range stored on each edge, and a topological order - the
   `order` argument below stands for `resolve()`'s output and
   `constraintsOf` for `_resolver._constraints`);
2. for each name in the load order, appends
   `self.load_plugin_by_class(cls, name, ...)` to `init_tasks`.  These are
   coroutine OBJECTS: no line of `load_plugin_by_class` (constructing the
   plugin, `self.plugins[name] = plugin`, `__onload__`) runs before the
   first await of the coroutine;
3. calls `self._validate_versions()`: for every `(plugin, dep, constraint)`
   in the constraint table, looks `dep` up in `self.plugins` - which at
   this point still holds only the PREVIOUSLY loaded plugins (`pre`) -
   raising `PluginDependencyError` on a miss and `PluginVersionError` when
   the installed version does not satisfy the range (`SpecifierSet(c)
   .contains(parse_version(v))` is the external `packaging` library,
   abstracted as the parameter `sat`);
4. only then runs `await asyncio.gather(*init_tasks)`, which executes every
   `__onload__` via `_init_plugin_in_thread` (`run_in_executor` on the
   plugin's thread pool) - concurrently, with no inter-plugin ordering.

A raised validation error propagates out of `load_all_plugins_by_class`
before the gather, so on error no plugin of the batch is constructed or
recorded. -/

/-- A batch plugin declaration: manifest version and
`dependencies : name → semver range`. -/
structure PluginDecl where
  version : String
  deps : List (String × String)
  deriving DecidableEq, Repr

/-- `PluginDependencyError` / `PluginVersionError`. -/
inductive LoadErr where
  | dependencyError (plugin dep constraint : String)
  | versionError (plugin dep constraint version : String)
  deriving DecidableEq, Repr

/-- The inner loop of `_validate_versions` for one declaring plugin:
look each dependency up in the loaded-plugins table, raise
`PluginDependencyError` on a miss, `PluginVersionError` on an unsatisfied
range. -/
def validateDeps (sat : String → String → Bool) (pname : String)
    (cs : List (String × String)) (plugins : List (String × String)) :
    Except LoadErr Unit :=
  match cs with
  | [] => .ok ()
  | (dep, c) :: rest =>
      match dictGet plugins dep with
      | none => .error (.dependencyError pname dep c)
      | some v =>
          if sat c v then validateDeps sat pname rest plugins
          else .error (.versionError pname dep c v)

/-- `PluginLoader._validate_versions` over the resolver's constraint
table. -/
def validate_versions (sat : String → String → Bool)
    (constraints : List (String × List (String × String)))
    (plugins : List (String × String)) : Except LoadErr Unit :=
  match constraints with
  | [] => .ok ()
  | (pname, cs) :: rest =>
      match validateDeps sat pname cs plugins with
      | .error e => .error e
      | .ok _ => validate_versions sat rest plugins

/-- `_resolver._constraints`: each batch plugin with its declared
dependency ranges. -/
def constraintsOf (batch : List (String × PluginDecl)) :
    List (String × List (String × String)) :=
  batch.map (fun nd => (nd.1, nd.2.deps))

/-- `PluginLoader.load_all_plugins_by_class`: validation runs against the
pre-batch `self.plugins` (the init coroutines are still unstarted); on
success the gather runs every init task and the batch plugins end up in
`self.plugins`. -/
def load_all_plugins_by_class (sat : String → String → Bool)
    (pre : List (String × String)) (batch : List (String × PluginDecl))
    (order : List String) : Except LoadErr (List (String × String)) :=
  match validate_versions sat (constraintsOf batch) pre with
  | .error e => .error e
  | .ok _ =>
      .ok (pre ++ order.filterMap
        (fun n => (dictGet batch n).map (fun d => (n, d.version))))

/-- A lifecycle-hook event of the concurrent init phase. -/
inductive Ev where
  | hookStart (n : String)
  | hookEnd (n : String)
  deriving DecidableEq, Repr

/-- Index of the first occurrence of an event in a trace. -/
def evIdx (tr : List Ev) (e : Ev) : Nat :=
  match tr with
  | [] => 0
  | x :: rest => if x = e then 0 else evIdx rest e + 1

/-- Occurrences of an event in a trace. -/
def countEv (tr : List Ev) (e : Ev) : Nat :=
  (tr.filter (fun x => x = e)).length

/-- The `__onload__` traces `await asyncio.gather(*init_tasks)` admits:
each hook runs in the plugin's own worker thread
(`_init_plugin_in_thread` / `run_in_executor`), so the ONLY constraint the
code imposes is that each plugin's hook starts once and ends once, after
its start.  Any interleaving across plugins is possible. -/
def validTrace (names : List String) (tr : List Ev) : Bool :=
  names.all (fun n =>
    (countEv tr (.hookStart n) == 1) && (countEv tr (.hookEnd n) == 1) &&
    decide (evIdx tr (.hookStart n) < evIdx tr (.hookEnd n))) &&
  tr.all (fun e =>
    match e with
    | .hookStart n => names.contains n
    | .hookEnd n => names.contains n)

/-- `tr` is a hook-execution trace `load_all_plugins_by_class` can
produce: on a validation error the gather is never reached and no hook
runs; on success any per-plugin-well-formed interleaving can occur. -/
def loadAdmitsTrace (sat : String → String → Bool)
    (pre : List (String × String)) (batch : List (String × PluginDecl))
    (order : List String) (tr : List Ev) : Bool :=
  match load_all_plugins_by_class sat pre batch order with
  | .error _ => tr.isEmpty
  | .ok _ => validTrace order tr

end Ncatbot

/-! ### C2 -/

/-- C2: for an existing user u and permission path p, `check(u, p)` returns
false whenever any accumulated black-list pattern (from u's direct lists or
from any role u holds transitively through inheritance) matches p, regardless
of white-list membership; and when no black-list pattern matches, it returns
true iff some accumulated white-list pattern matches p (default deny). -/
theorem rbac_check_semantics (st : Ncatbot.RBACState) (u p : String)
    (ud : Ncatbot.UserData) (hu : Ncatbot.dictGet st.users u = some ud) :
    ((∃ b, Ncatbot.AccBlack st ud b ∧ Ncatbot.permMatches b p = true) →
       Ncatbot.check st u p = .ok (st, false)) ∧
    ((¬ ∃ b, Ncatbot.AccBlack st ud b ∧ Ncatbot.permMatches b p = true) →
       (Ncatbot.check st u p = .ok (st, true) ↔
        ∃ w, Ncatbot.AccWhite st ud w ∧ Ncatbot.permMatches w p = true)) := by
  have hch := Ncatbot.check_exists_user st u p ud hu
  constructor
  · rintro ⟨b, hb, hm⟩
    have hany : (Ncatbot.effectivePermissions st u).blacklist.any
        (fun b0 => Ncatbot.permMatches b0 p) = true :=
      List.any_eq_true.mpr ⟨b, (Ncatbot.effective_black_mem st u ud hu b).mpr hb, hm⟩
    rw [hch, if_pos hany]
  · intro hnb
    have hanyb : (Ncatbot.effectivePermissions st u).blacklist.any
        (fun b0 => Ncatbot.permMatches b0 p) = false := by
      rw [Bool.eq_false_iff]
      intro hc
      obtain ⟨b, hbmem, hm⟩ := List.any_eq_true.mp hc
      exact hnb ⟨b, (Ncatbot.effective_black_mem st u ud hu b).mp hbmem, hm⟩
    rw [hch, if_neg (by simp [hanyb])]
    constructor
    · intro hres
      cases hwany : (Ncatbot.effectivePermissions st u).whitelist.any
          (fun w0 => Ncatbot.permMatches w0 p) with
      | false =>
          rw [if_neg (by simp [hwany])] at hres
          exact absurd hres (by simp)
      | true =>
          obtain ⟨w, hwmem, hm⟩ := List.any_eq_true.mp hwany
          exact ⟨w, (Ncatbot.effective_white_mem st u ud hu w).mp hwmem, hm⟩
    · rintro ⟨w, hw, hm⟩
      have hwany : (Ncatbot.effectivePermissions st u).whitelist.any
          (fun w0 => Ncatbot.permMatches w0 p) = true :=
        List.any_eq_true.mpr
          ⟨w, (Ncatbot.effective_white_mem st u ud hu w).mpr hw, hm⟩
      rw [if_pos hwany]

/-- A concrete RBAC state: user "u" holds role "member", "member" inherits
"admin", and "admin" blacklists "op.*". -/
def c2WitnessState : Ncatbot.RBACState :=
  { permissions := [], roles := [("admin", ⟨[], ["op.*"]⟩)],
    users := [("u", ⟨[], [], ["member"]⟩)],
    roleUsers := [("admin", [])],
    roleInheritance := [("member", ["admin"])], defaultRole := none }

/-- C2 witness: with "op.*" blacklisted on a transitively inherited role,
the check for "op.reboot" is denied. -/
theorem rbac_check_semantics_witness :
    Ncatbot.check c2WitnessState "u" "op.reboot" =
      .ok (c2WitnessState, false) := by
  refine (rbac_check_semantics c2WitnessState "u" "op.reboot"
    ⟨[], [], ["member"]⟩ rfl).1 ?_
  refine ⟨"op.*", Or.inr ⟨"admin", ⟨[], ["op.*"]⟩, ⟨"member", by decide, ?_⟩,
    by decide, by decide⟩, by decide⟩
  exact Ncatbot.ReachRT.step (by decide) (Ncatbot.ReachRT.refl _)

/-! ### C10 -/

/-- C10 (implicit invariant): whitelists and blacklists stay disjoint for
every user and every role over every sequence of RBAC operations from a
fresh service; `grant` adds the permission to the list named by its mode and
removes it from the opposite list; `revoke` removes it from both lists; and
newly created users and roles start with both lists empty. -/
theorem rbac_white_black_disjoint :
    (∀ (d : Option String) (ops : List Ncatbot.RbacOp),
        Ncatbot.DisjointWB (Ncatbot.runRbacOps (Ncatbot.initRBAC d) ops)) ∧
    (∀ (st : Ncatbot.RBACState) (tt : Ncatbot.TargetType) (target p : String)
        (w c : Bool) (st' : Ncatbot.RBACState),
        Ncatbot.grant st tt target p w c = .ok st' →
        ∃ ls, Ncatbot.getListsOf st' tt target = some ls ∧
          (w = true → p ∈ ls.whitelist ∧ p ∉ ls.blacklist) ∧
          (w = false → p ∈ ls.blacklist ∧ p ∉ ls.whitelist)) ∧
    (∀ (st : Ncatbot.RBACState) (tt : Ncatbot.TargetType) (target p : String)
        (st' : Ncatbot.RBACState),
        Ncatbot.revoke st tt target p = .ok st' →
        ∃ ls, Ncatbot.getListsOf st' tt target = some ls ∧
          p ∉ ls.whitelist ∧ p ∉ ls.blacklist) ∧
    (∀ (st : Ncatbot.RBACState) (r : String) (st' : Ncatbot.RBACState),
        Ncatbot.add_role st r false = .ok st' →
        Ncatbot.dictGet st'.roles r = some ⟨[], []⟩) ∧
    (∀ (st : Ncatbot.RBACState) (u : String) (st' : Ncatbot.RBACState),
        Ncatbot.add_user st u false = .ok st' →
        ∃ ud, Ncatbot.dictGet st'.users u = some ud ∧
          ud.whitelist = [] ∧ ud.blacklist = []) := by
  refine ⟨?_, ?_, ?_, ?_, ?_⟩
  · intro d ops
    exact Ncatbot.runRbacOps_disjoint _ ops (Ncatbot.initRBAC_disjoint d)
  · intro st tt target p w c st' hg
    exact Ncatbot.grant_sets hg
  · intro st tt target p st' hg
    exact Ncatbot.revoke_clears hg
  · intro st r st' hg
    exact Ncatbot.add_role_fresh hg
  · intro st u st' hg
    exact Ncatbot.add_user_fresh hg

/-- C10 witness: granting "perm" in black mode to an existing user yields a
state where the permission sits in the blacklist only. -/
theorem rbac_white_black_disjoint_witness :
    ∃ ls, Ncatbot.getListsOf
        { permissions := ["perm"], roles := [],
          users := [("u", ⟨[], ["perm"], []⟩)], roleUsers := [],
          roleInheritance := [], defaultRole := none }
        .user "u" = some ls ∧
      (false = true → "perm" ∈ ls.whitelist ∧ "perm" ∉ ls.blacklist) ∧
      (false = false → "perm" ∈ ls.blacklist ∧ "perm" ∉ ls.whitelist) := by
  refine rbac_white_black_disjoint.2.1
    { permissions := ["perm"], roles := [],
      users := [("u", ⟨["perm"], [], []⟩)], roleUsers := [],
      roleInheritance := [], defaultRole := none }
    .user "u" "perm" false false _ ?_
  rfl

/-! ### C3 -/

/-- C3: if adding an inheritance edge role → parent would create a cycle
(including role = parent), the mutation is rejected with an error and the
RBAC state is unchanged; consequently the role inheritance graph stays
acyclic over every sequence of RBAC operations starting from a fresh
service. -/
theorem rbac_inheritance_acyclic :
    (∀ (st : Ncatbot.RBACState) (role parent : String),
        Ncatbot.AcyclicInh st.roleInheritance →
        ¬ Ncatbot.AcyclicInh (Ncatbot.addEdge st.roleInheritance role parent) →
        (∃ e, Ncatbot.set_role_inheritance st role parent = .error e) ∧
        Ncatbot.applyRbacOp st (.setRoleInheritance role parent) = st) ∧
    (∀ (d : Option String) (ops : List Ncatbot.RbacOp),
        Ncatbot.AcyclicInh
          (Ncatbot.runRbacOps (Ncatbot.initRBAC d) ops).roleInheritance) := by
  constructor
  · intro st role parent hacyc hcyc
    have hreach := Ncatbot.cycle_addEdge_implies_reach hacyc hcyc
    obtain ⟨e, he⟩ := Ncatbot.set_role_inheritance_rejects st role parent hreach
    refine ⟨⟨e, he⟩, ?_⟩
    simp [Ncatbot.applyRbacOp, he]
  · intro d ops
    exact Ncatbot.runRbacOps_acyclic _ ops (Ncatbot.initRBAC_acyclic d)

/-- C3 witness: a self-inheritance attempt on a fresh service is rejected
and leaves the state unchanged. -/
theorem rbac_inheritance_acyclic_witness :
    (∃ e, Ncatbot.set_role_inheritance (Ncatbot.initRBAC none) "a" "a" =
      .error e) ∧
    Ncatbot.applyRbacOp (Ncatbot.initRBAC none) (.setRoleInheritance "a" "a") =
      Ncatbot.initRBAC none := by
  have hacyc := Ncatbot.initRBAC_acyclic none
  have hcyc : ¬ Ncatbot.AcyclicInh
      (Ncatbot.addEdge (Ncatbot.initRBAC none).roleInheritance "a" "a") := by
    intro hc
    refine hc "a" ⟨"a", ?_, Ncatbot.ReachRT.refl _⟩
    unfold Ncatbot.EdgeTo
    decide
  exact rbac_inheritance_acyclic.1 (Ncatbot.initRBAC none) "a" "a" hacyc hcyc

/-! ### C1 -/

/-- C1 counterexample: run one `send`, let it time out, then deliver a late
response carrying the popped echo, with an event callback registered (the
normal operating mode).  The claim says the late frame is silently dropped
and not delivered to anyone; in fact `_on_message` falls through and hands it
to the event callback (`toEvent`), so it is not dropped. -/
theorem message_router_late_response_counterexample :
    (Ncatbot.routerRun ⟨true⟩ Ncatbot.initRouter
        [.sendStart "a" [], .sendTimeout 0,
         .frameArrive ⟨some 0, "late"⟩]).2 =
      [.sent 0 (Ncatbot.mkOutFrame "a" [] 0), .timedOut 0,
       .toEvent ⟨some 0, "late"⟩] ∧
    (Ncatbot.routerRun ⟨true⟩ Ncatbot.initRouter
        [.sendStart "a" [], .sendTimeout 0,
         .frameArrive ⟨some 0, "late"⟩]).2.getLast? ≠
      some (.dropped ⟨some 0, "late"⟩) := by
  decide

/-- C1 (amended): over every run of the router from its initial state,
(1) every `send` call is allocated a fresh echo id, distinct from every other
call's; (2) a `send` that returns a response returns the frame whose echo
equals the id allocated for that call; (3) after a call returns — with a
response or by timeout — the pending-request table contains no entry for its
echo; and (4) a response frame arriving when its echo is no longer pending is
not delivered to any `send` caller: it is handed to the event callback as an
ordinary event (only with no callback registered is it dropped). -/
theorem message_router_send_contract (cfg : Ncatbot.RouterCfg)
    (acts : List Ncatbot.RouterAct) :
    (Ncatbot.sentEchoes (Ncatbot.routerRun cfg Ncatbot.initRouter acts).2).Nodup ∧
    (∀ (e : Nat) (f : Ncatbot.InFrame),
        Ncatbot.RouterObs.returned e f ∈
          (Ncatbot.routerRun cfg Ncatbot.initRouter acts).2 →
        f.echo = some e) ∧
    (∀ e : Nat,
        ((∃ f, Ncatbot.RouterObs.returned e f ∈
            (Ncatbot.routerRun cfg Ncatbot.initRouter acts).2) ∨
         Ncatbot.RouterObs.timedOut e ∈
            (Ncatbot.routerRun cfg Ncatbot.initRouter acts).2) →
        e ∉ Ncatbot.pendingKeys (Ncatbot.routerRun cfg Ncatbot.initRouter acts).1) ∧
    (∀ (st : Ncatbot.RouterState) (f : Ncatbot.InFrame) (e : Nat),
        f.echo = some e → e ∉ Ncatbot.pendingKeys st → cfg.hasCallback = true →
        Ncatbot.routerStep cfg st (.frameArrive f) = (st, .toEvent f)) := by
  refine ⟨?_, ?_, ?_, ?_⟩
  · exact (Ncatbot.routerRun_sent_pairwise cfg Ncatbot.initRouter acts).imp
      (fun h => Nat.ne_of_lt h)
  · intro e f hm
    exact Ncatbot.routerRun_returned_echo cfg Ncatbot.initRouter acts
      Ncatbot.initRouter_inv hm
  · intro e hm
    exact (Ncatbot.routerRun_finished_gone cfg Ncatbot.initRouter acts
      Ncatbot.initRouter_inv hm).2
  · intro st f e hf hnm hcb
    have hnone : Ncatbot.dictGet st.pending e = none :=
      (Ncatbot.dictGet_eq_none_iff _ _).mpr hnm
    simp [Ncatbot.routerStep, hf, hnone, Ncatbot.callbackResult, hcb]

/-- C1 witness: the contract applied on a concrete run — a response frame
whose echo is not pending is handed to the event callback. -/
theorem message_router_send_contract_witness :
    Ncatbot.routerStep ⟨true⟩ ⟨[], 5⟩ (.frameArrive ⟨some 3, "late"⟩) =
      (⟨[], 5⟩, .toEvent ⟨some 3, "late"⟩) :=
  (message_router_send_contract ⟨true⟩ []).2.2.2 ⟨[], 5⟩ ⟨some 3, "late"⟩ 3
    rfl (by simp [Ncatbot.pendingKeys, Ncatbot.dictKeys]) rfl

/-! ### C8 -/

/-- C8 counterexample: the claim says the outbound `action` equals the input
with only a leading `/` stripped and all other characters unchanged.
For the input "a/b" the code (`action.replace("/", "")`) produces "ab",
whereas the claimed behaviour leaves "a/b" unchanged. -/
theorem send_action_counterexample :
    (Ncatbot.mkOutFrame "a/b" [] 0).action = "ab" ∧
    Ncatbot.stripLeadingSlash "a/b" = "a/b" ∧
    (Ncatbot.mkOutFrame "a/b" [] 0).action ≠ Ncatbot.stripLeadingSlash "a/b" := by
  decide

/-- C8 (amended): for every action string passed to `send`, the encoded
outbound frame's `action` field equals the input action with every '/'
removed (not only a leading one), and the frame carries the caller's params
and a freshly allocated echo identifier not colliding with any pending
request. -/
theorem send_frame_encoding (cfg : Ncatbot.RouterCfg) (st : Ncatbot.RouterState)
    (action : String) (params : List (String × String))
    (h : Ncatbot.RouterInv st) :
    Ncatbot.routerStep cfg st (.sendStart action params) =
      ({ pending := st.pending ++ [(st.next, .waiting)], next := st.next + 1 },
       .sent st.next
         { action := Ncatbot.replaceSlash action, params := params,
           echo := st.next }) ∧
    st.next ∉ Ncatbot.pendingKeys st := by
  constructor
  · rfl
  · intro hc
    exact absurd (h.2.1 _ hc) (lt_irrefl _)

/-- C8 witness: the encoding theorem applied at the initial router state. -/
theorem send_frame_encoding_witness :
    Ncatbot.routerStep ⟨true⟩ Ncatbot.initRouter (.sendStart "/get_group_list" []) =
      ({ pending := [(0, .waiting)], next := 1 },
       .sent 0 { action := "get_group_list", params := [], echo := 0 }) := by
  have h := send_frame_encoding ⟨true⟩ Ncatbot.initRouter "/get_group_list" []
    Ncatbot.initRouter_inv
  rw [h.1]
  decide

/-! ### C9 -/

/-- C9: for every string p, the strong-password predicate returns true iff p
has length at least 12 and contains at least one digit, one lowercase letter,
one uppercase letter, and one special character. -/
theorem strong_password_check_iff (p : String) :
    Ncatbot.strong_password_check p = true ↔
      (p.length ≥ 12 ∧
       (∃ c ∈ p.data, c.isDigit) ∧
       (∃ c ∈ p.data, 'a' ≤ c ∧ c ≤ 'z') ∧
       (∃ c ∈ p.data, 'A' ≤ c ∧ c ≤ 'Z') ∧
       (∃ c ∈ p.data, c ∈ Ncatbot.specialChars)) := by
  unfold Ncatbot.strong_password_check
  simp [List.any_eq_true, Bool.and_eq_true, decide_eq_true_eq, and_assoc]

/-! ### C6 -/

/-- C6 counterexample: the wire dict `face` with data
`id = "1", foo = None` decodes (the null extra is retained verbatim), but
`to_dict` runs `model_dump` with `exclude_none=True`, which drops the
null-valued extra; hence the round-trip is not the identity on this
decoder-produced segment and the extra field is not re-emitted. -/
theorem segment_roundtrip_counterexample :
    Ncatbot.from_dict ⟨"face", [("id", .str "1"), ("foo", .null)]⟩ =
      .ok ⟨"face", [("id", .str "1"), ("foo", .null)]⟩ ∧
    Ncatbot.to_dict ⟨"face", [("id", .str "1"), ("foo", .null)]⟩ =
      ⟨"face", [("id", .str "1")]⟩ ∧
    Ncatbot.from_dict
        (Ncatbot.to_dict ⟨"face", [("id", .str "1"), ("foo", .null)]⟩) =
      .ok ⟨"face", [("id", .str "1")]⟩ ∧
    Ncatbot.Seg.mk "face" [("id", .str "1")] ≠
      ⟨"face", [("id", .str "1"), ("foo", .null)]⟩ ∧
    ("foo", Ncatbot.JVal.null) ∉
      (Ncatbot.to_dict ⟨"face", [("id", .str "1"), ("foo", .null)]⟩).data := by
  refine ⟨rfl, rfl, rfl, by decide, by decide⟩

/-- C6 (amended): for every segment s of a known type whose parts validate
(declared fields are validation fixpoints, the injected tag validates
against the class's `type` field) and whose extra (non-declared) fields are
all non-null, `from_dict (to_dict s) = ok s`; for every wire dict that
decodes, every input field whose key is neither a declared field of the
type nor `"type"` is retained verbatim on the decoded segment and, when its
value is not null, re-emitted by `to_dict`; and an `image` wire dict never
decodes, because `Image` re-declares the `type` field as
`Optional[Literal["flash"]] = None`, which rejects the injected tag. -/
theorem segment_roundtrip (s : Ncatbot.Seg)
    (schema : List (String × Ncatbot.FieldKind))
    (decl extras : List (String × Ncatbot.JVal))
    (w : Ncatbot.WireDict) (s2 : Ncatbot.Seg)
    (schema2 : List (String × Ncatbot.FieldKind))
    (k : String) (v : Ncatbot.JVal)
    (hp : Ncatbot.SegParts s schema decl extras)
    (hnn : ∀ kv ∈ extras, kv.2 ≠ Ncatbot.JVal.null)
    (hs : Ncatbot.from_dict w = .ok s2)
    (hschema2 : Ncatbot.segSchema w.type = some schema2)
    (hk1 : k ∉ Ncatbot.schemaKeys schema2) (hk2 : k ≠ "type")
    (hmem : (k, v) ∈ w.data) :
    Ncatbot.from_dict (Ncatbot.to_dict s) = .ok s ∧
    ((k, v) ∈ s2.fields ∧
      (v ≠ Ncatbot.JVal.null → (k, v) ∈ (Ncatbot.to_dict s2).data)) ∧
    (∃ e, Ncatbot.from_dict
      ⟨"image", [("file", Ncatbot.JVal.str "a.png")]⟩ = .error e) :=
  ⟨Ncatbot.from_to_dict_roundtrip s schema decl extras hp hnn,
   Ncatbot.from_dict_retains_extras w s2 schema2 k v hs hschema2 hk1 hk2
     hmem,
   ⟨"not a permitted literal", rfl⟩⟩

/-- C6 witness: a music segment with null-valued declared optionals and a
non-null extra round-trips (exercising the platform/type renaming of
`Music.from_dict`/`to_dict`); the non-declared field of a decoded at
segment is retained and re-emitted. -/
theorem segment_roundtrip_witness :
    Ncatbot.from_dict (Ncatbot.to_dict ⟨"music",
        [("platform", .str "qq"), ("id", .str "123"), ("url", .null),
         ("audio", .null), ("title", .null), ("ex", .str "e")]⟩) =
      .ok ⟨"music",
        [("platform", .str "qq"), ("id", .str "123"), ("url", .null),
         ("audio", .null), ("title", .null), ("ex", .str "e")]⟩ ∧
    (("kk", Ncatbot.JVal.int 5) ∈
      (Ncatbot.Seg.mk "at" [("qq", .str "all"), ("kk", .int 5)]).fields ∧
      (Ncatbot.JVal.int 5 ≠ Ncatbot.JVal.null →
        ("kk", Ncatbot.JVal.int 5) ∈
          (Ncatbot.to_dict
            ⟨"at", [("qq", .str "all"), ("kk", .int 5)]⟩).data)) ∧
    (∃ e, Ncatbot.from_dict
      ⟨"image", [("file", Ncatbot.JVal.str "a.png")]⟩ = .error e) :=
  segment_roundtrip
    ⟨"music",
      [("platform", .str "qq"), ("id", .str "123"), ("url", .null),
       ("audio", .null), ("title", .null), ("ex", .str "e")]⟩
    [("platform", .lit ["qq", "163", "custom"]), ("id", .optStr),
     ("url", .optStr), ("audio", .optStr), ("title", .optStr)]
    [("platform", .str "qq"), ("id", .str "123"), ("url", .null),
     ("audio", .null), ("title", .null)]
    [("ex", .str "e")]
    ⟨"at", [("qq", .str "all"), ("kk", .int 5)]⟩
    ⟨"at", [("qq", .str "all"), ("kk", .int 5)]⟩
    [("qq", .qq)] "kk" (.int 5)
    ⟨rfl, rfl, by decide, by decide, by decide, rfl, by decide⟩
    (by decide) rfl rfl (by decide) (by decide) (by decide)

/-! ### C7 -/

def c7WitnessState : Ncatbot.SysState :=
  ⟨[(1, "p"), (2, "q"), (3, "p")], [("p", [1, 3]), ("q", [2])],
   [(10, "p"), (11, "q")]⟩

/-- C7: for every loaded plugin (present in the loader's table), after
`unload(plugin)` completes, the number of event-bus subscriptions owned by
that plugin is zero and the number of command specs owned by that plugin is
zero.  The hypothesis is the register-time invariant that every bus
subscription owned by the plugin has its id recorded in the plugin's
`_handlers_id` set (maintained by `register_handler`, which adds the fresh
subscription id to the set, and `unregister_handler`, which removes from
the set and the bus together). -/
theorem plugin_unload_clears_owned (st : Ncatbot.SysState) (name : String)
    (hids : List Nat) (hp : Ncatbot.dictGet st.plugins name = some hids)
    (hown : ∀ s ∈ st.bus, s.2 = name → s.1 ∈ hids) :
    (Ncatbot.unload st name).2 = true ∧
    Ncatbot.ownedSubs (Ncatbot.unload st name).1 name = 0 ∧
    Ncatbot.ownedCmds (Ncatbot.unload st name).1 name = 0 := by
  have hb : Ncatbot.unload st name =
      (⟨(Ncatbot.unregAllAux hids (st.bus, hids)).1,
        Ncatbot.dictRemove st.plugins name,
        Ncatbot.revoke_plugin st.commands name⟩, true) := by
    unfold Ncatbot.unload
    rw [hp]
  refine ⟨by rw [hb], ?_, ?_⟩
  · rw [hb]
    unfold Ncatbot.ownedSubs
    dsimp only
    rw [List.filter_eq_nil_iff.mpr ?_]
    · rfl
    · intro s hs
      obtain ⟨h1, h2⟩ := Ncatbot.unregAllAux_mem hids (st.bus, hids) s hs
      simp only [decide_eq_true_eq]
      intro hname
      exact h2 s.1 (hown s h1 hname) (hown s h1 hname) rfl
  · rw [hb]
    unfold Ncatbot.ownedCmds Ncatbot.revoke_plugin
    dsimp only
    rw [List.filter_eq_nil_iff.mpr ?_]
    · rfl
    · intro c hc
      have := List.of_mem_filter hc
      simpa using this

/-- C7 witness: unloading plugin p from a state where p owns bus
subscriptions 1 and 3 and command spec 10 leaves it owning none. -/
theorem plugin_unload_clears_owned_witness :
    (Ncatbot.unload c7WitnessState "p").2 = true ∧
    Ncatbot.ownedSubs (Ncatbot.unload c7WitnessState "p").1 "p" = 0 ∧
    Ncatbot.ownedCmds (Ncatbot.unload c7WitnessState "p").1 "p" = 0 :=
  plugin_unload_clears_owned c7WitnessState "p" [1, 3] rfl (by decide)

/-! ### C5 -/

/-- C5 (code bug): on the spec's S4 batch - B at 1.3.0 with no
dependencies, A depending on B with a satisfiable range, C depending on B
with an unmet range - `load_all_plugins_by_class` raises
`PluginDependencyError(A, B)` for ANY version-satisfaction semantics and
loads nothing, because `_validate_versions` runs before any init coroutine
has executed, so `self.plugins` contains no batch plugin and the in-batch
dependency lookup misses; the same happens even for the two-plugin batch
with only A and B, where the spec expects both to load. -/
theorem version_validation_batch_aborts (sat : String → String → Bool) :
    Ncatbot.load_all_plugins_by_class sat []
      [("B", ⟨"1.3.0", []⟩),
       ("A", ⟨"1.0.0", [("B", ">=1.0,<2.0")]⟩),
       ("C", ⟨"1.0.0", [("B", "^2.0")]⟩)]
      ["B", "A", "C"] =
      .error (.dependencyError "A" "B" ">=1.0,<2.0") ∧
    Ncatbot.load_all_plugins_by_class sat []
      [("B", ⟨"1.3.0", []⟩),
       ("A", ⟨"1.0.0", [("B", ">=1.0,<2.0")]⟩)]
      ["B", "A"] =
      .error (.dependencyError "A" "B" ">=1.0,<2.0") :=
  ⟨rfl, rfl⟩

/-! ### C4 -/

def c4Batch : List (String × Ncatbot.PluginDecl) :=
  [("B", ⟨"2.0.0", []⟩), ("A", ⟨"1.0.0", [("B", ">=1.0,<2.0")]⟩)]

def c4Trace : List Ncatbot.Ev :=
  [.hookStart "A", .hookEnd "A", .hookStart "B", .hookEnd "B"]

/-- C4 (code bug): A declares a dependency on B and both are in the loaded
batch (B is also pre-loaded at 1.3.0, so `_validate_versions` finds it and
passes for any `sat` accepting the range).  `asyncio.gather` then runs the
init tasks concurrently in per-plugin worker threads with no inter-plugin
ordering, so the load admits a trace in which A's `on_load` starts - and
even finishes - before B's has started, contradicting the claimed strict
ordering. -/
theorem on_load_ordering_counterexample (sat : String → String → Bool)
    (h : sat ">=1.0,<2.0" "1.3.0" = true) :
    Ncatbot.loadAdmitsTrace sat [("B", "1.3.0")] c4Batch ["B", "A"]
      c4Trace = true ∧
    Ncatbot.evIdx c4Trace (Ncatbot.Ev.hookStart "A") <
      Ncatbot.evIdx c4Trace (Ncatbot.Ev.hookEnd "B") := by
  have hv : Ncatbot.validate_versions sat (Ncatbot.constraintsOf c4Batch)
      [("B", "1.3.0")] = .ok () := by
    simp [Ncatbot.validate_versions, Ncatbot.validateDeps,
      Ncatbot.constraintsOf, Ncatbot.dictGet, c4Batch, h]
  have hl : Ncatbot.load_all_plugins_by_class sat [("B", "1.3.0")] c4Batch
      ["B", "A"] = .ok [("B", "1.3.0"), ("B", "2.0.0"), ("A", "1.0.0")] := by
    unfold Ncatbot.load_all_plugins_by_class
    rw [hv]
    rfl
  constructor
  · unfold Ncatbot.loadAdmitsTrace
    rw [hl]
    decide
  · decide

/-- C4 witness: the counterexample instantiated with a satisfaction
function accepting the range. -/
theorem on_load_ordering_counterexample_witness :
    Ncatbot.loadAdmitsTrace (fun _ _ => true) [("B", "1.3.0")] c4Batch
      ["B", "A"] c4Trace = true ∧
    Ncatbot.evIdx c4Trace (Ncatbot.Ev.hookStart "A") <
      Ncatbot.evIdx c4Trace (Ncatbot.Ev.hookEnd "B") :=
  on_load_ordering_counterexample (fun _ _ => true) rfl
